import Mathlib

/-!
# ls-lint: the concurrent lint-execution engine (`linter.go`)

A shallow embedding of `Linter.validateFile`, `Linter.addError`,
`Linter.getErrors` and `Linter.Run`, together with the standard-library
functions they call (`filepath.Ext`, `filepath.Base`, `strings.TrimSuffix`,
`filepath.Walk`, `errgroup.Group`).

Strings are modelled as their character sequences.  The only characters the
path functions inspect are `.` and `/`, both single bytes in UTF-8, so the
byte-wise scans of the Go library agree with the character-wise scans used
here.  The path separator is the Unix one.

The nondeterminism of an execution is made explicit: the interleaving of the
goroutines is a schedule (a list of goroutine indices), and what a goroutine
finds in a loop variable it uses without a copy is a `Capture`.
-/

namespace LsLint

/-- A Go `string`. -/
abbrev GoString := List Char

/-! ## Path functions -/

/-- The function `os.IsPathSeparator` (Unix). -/
def IsPathSeparator (c : Char) : Bool := c == '/'

/-- The loop of `filepath.Ext`: `rev` holds `path[i], path[i-1], ..., path[0]`
and `acc` holds `path[i+1:]`.  The loop stops at a path separator (result `""`)
and returns `path[i:]` at the first dot met. -/
def Ext.scan : List Char → List Char → GoString
  | [], _ => []
  | c :: rev, acc =>
    if IsPathSeparator c then []
    else if c = '.' then c :: acc
    else Ext.scan rev (c :: acc)

/-- The function `filepath.Ext`: the suffix beginning at the final dot in the part
of `path` after its last separator; empty if there is no such dot. -/
def Ext (path : GoString) : GoString :=
  Ext.scan path.reverse []

/-- The part of `path` after its last separator, reversed: what the loops of
`filepath.Ext` and `filepath.Base` walk over. -/
def lastElemRev (rev : List Char) : List Char :=
  rev.takeWhile (fun c => !IsPathSeparator c)

/-- The function `filepath.Base`: `"."` for the empty path; otherwise trailing
separators are stripped and the last element is returned, `"/"` if nothing
is left. -/
def Base (path : GoString) : GoString :=
  if path = [] then ['.']
  else
    let stripped := path.reverse.dropWhile IsPathSeparator
    let last := (lastElemRev stripped).reverse
    if last = [] then ['/'] else last

/-- The function `strings.TrimSuffix`. -/
def TrimSuffix (s suffix : GoString) : GoString :=
  if suffix.isSuffixOf s then s.take (s.length - suffix.length) else s

/-- The candidate name `validateFile` passes to `Rule.Validate`:
`strings.TrimSuffix(filepath.Base(path), ext)` with `ext = filepath.Ext(path)`. -/
def withoutExt (path : GoString) : GoString :=
  TrimSuffix (Base path) (Ext path)

/-- The characters `filepath.Ext` skips before it meets a dot or a separator. -/
def extTailRev (rev : List Char) : List Char :=
  rev.takeWhile (fun c => !IsPathSeparator c && !(c == '.'))

/-! ## Data model -/

/-- A Go `error` value: the two sentinels `filepath.Walk` inspects, or any other
error, identified by its message. -/
inductive GoError
  | SkipDir
  | SkipAll
  | msg (text : GoString)
  deriving DecidableEq, Repr

/-- The `Rule` interface.  It is declared outside `linter.go`; the engine only
calls `Validate(name) (bool, error)`, which is taken as a parameter. -/
class Rule (ρ : Type) where
  /-- The method `rule.Validate(name)`: the pair `(valid, err)`. -/
  Validate : ρ → GoString → Bool × Option GoError

/-- The struct `Error`: a path and the rules it failed (its own mutex is
never used by the engine). -/
structure Error (ρ : Type) where
  Path : GoString
  Rules : List ρ
  deriving DecidableEq, Repr

/-- The struct `Linter` (the embedded mutex is modelled by `Group.writer`). -/
structure Linter (ρ : Type) where
  Entrypoint : GoString
  Errors : List (Error ρ)
  deriving DecidableEq, Repr

/-- The value `map[string][]Rule` returned by `config.getConfig`. -/
abbrev RuleBucket (ρ : Type) := List (GoString × List ρ)

/-- The map read `rules[ext]`: the slice stored under the key equal to `ext`,
the nil slice when there is no such key. -/
def RuleBucket.get {ρ : Type} (rules : RuleBucket ρ) (ext : GoString) : List ρ :=
  (rules.lookup ext).getD []

/-- The type `Config` is declared outside `linter.go`; its three methods used by
the engine are taken as parameters.  `getLs` lists the keys of the map the
engine ranges over, `getIndex` returns the pair `(index, err)`. -/
structure Config (ρ ι : Type) where
  getLs : List GoString
  getIndex : List GoString → ι × Option GoError
  getConfig : ι → GoString → RuleBucket ρ

/-! ## Goroutines, the mutex and `errgroup.Group`

A goroutine is a straight-line program over one shared slice variable.  An
`append` to the shared slice is a `load` of the slice followed by a `store` of
the loaded value extended by one element: two separate steps, between which
other goroutines may run. -/

/-- One atomic step of a goroutine. -/
inductive Instr (α : Type)
  | lock
  | unlock
  | load
  | store (x : α)
  deriving DecidableEq, Repr

/-- A goroutine started by `g.Go(f)`: the steps `f` still has to take, the slice
value it loaded last, the error `f` returns at its end, and whether it has
returned. -/
structure Goroutine (α : Type) where
  prog : List (Instr α)
  reg : List α
  ret : Option GoError
  done : Bool
  deriving DecidableEq, Repr

/-- An `errgroup.Group` with its goroutines, the slice they share, the holder
of the write lock guarding the slice (if any), and the first error recorded. -/
structure Group (α : Type) where
  var : List α
  writer : Option Nat
  err : Option GoError
  threads : List (Goroutine α)
  deriving DecidableEq, Repr

namespace Group

variable {α : Type}

/-- Goroutine `i` takes its next step.  `Lock` blocks while the lock is held;
a goroutine whose program is exhausted returns, and its error is recorded if
no error has been recorded before (`errOnce`). -/
def step (i : Nat) (g : Group α) : Group α :=
  match g.threads[i]? with
  | none => g
  | some t =>
    if t.done then g
    else
      match t.prog with
      | [] =>
        { g with
          err := match g.err with
            | some e => some e
            | none => t.ret
          threads := g.threads.set i { t with done := true } }
      | Instr.lock :: p =>
        match g.writer with
        | some _ => g
        | none => { g with writer := some i, threads := g.threads.set i { t with prog := p } }
      | Instr.unlock :: p =>
        { g with writer := none, threads := g.threads.set i { t with prog := p } }
      | Instr.load :: p =>
        { g with threads := g.threads.set i { t with prog := p, reg := g.var } }
      | Instr.store x :: p =>
        { g with var := t.reg ++ [x], threads := g.threads.set i { t with prog := p } }

/-- The goroutines take steps in the order the scheduler picks. -/
def run (sched : List Nat) (g : Group α) : Group α :=
  sched.foldl (fun g i => g.step i) g

/-- Goroutine `i` can take a step. -/
def enabled (g : Group α) (i : Nat) : Bool :=
  match g.threads[i]? with
  | none => false
  | some t =>
    if t.done then false
    else
      match t.prog with
      | Instr.lock :: _ => g.writer.isNone
      | _ => true

/-- Steps goroutine `t` still has to take, its return included. -/
def Goroutine.remaining (t : Goroutine α) : Nat :=
  if t.done then 0 else t.prog.length + 1

/-- Steps the goroutines of the group still have to take. -/
def remaining (g : Group α) : Nat :=
  (g.threads.map Goroutine.remaining).sum

/-- Let goroutines that can take a step do so, `fuel` times. -/
def drain : Nat → Group α → Group α
  | 0, g => g
  | fuel + 1, g =>
    match (List.range g.threads.length).find? g.enabled with
    | some i => drain fuel (g.step i)
    | none => g

/-- The call `g.Wait()`: block until every goroutine has returned. -/
def Wait (g : Group α) : Group α :=
  drain g.remaining g

/-- One execution of the group: the scheduler interleaves the goroutines as
`sched` says, then `Wait` lets the ones that have not returned yet finish. -/
def exec (sched : List Nat) (g : Group α) : Group α :=
  Wait (run sched g)

/-- Every goroutine has returned. -/
def allDone (g : Group α) : Bool :=
  g.threads.all (fun t => t.done)

/-- What one step of goroutine `i`, in state `t`, does to the group. -/
inductive StepSpec (g : Group α) (i : Nat) (t : Goroutine α) : Group α → Prop
  | ret (hp : t.prog = []) :
    StepSpec g i t
      { g with
        err := match g.err with
          | some e => some e
          | none => t.ret
        threads := g.threads.set i { t with done := true } }
  | lock (p : List (Instr α)) (hp : t.prog = Instr.lock :: p) (hw : g.writer = none) :
    StepSpec g i t
      { g with writer := some i, threads := g.threads.set i { t with prog := p } }
  | unlock (p : List (Instr α)) (hp : t.prog = Instr.unlock :: p) :
    StepSpec g i t
      { g with writer := none, threads := g.threads.set i { t with prog := p } }
  | load (p : List (Instr α)) (hp : t.prog = Instr.load :: p) :
    StepSpec g i t
      { g with threads := g.threads.set i { t with prog := p, reg := g.var } }
  | store (x : α) (p : List (Instr α)) (hp : t.prog = Instr.store x :: p) :
    StepSpec g i t
      { g with var := t.reg ++ [x], threads := g.threads.set i { t with prog := p } }

/-- The program `prog` pairs every `lock` with a later `unlock`, starting from
a goroutine that holds the lock (`true`) or does not (`false`). -/
def bal : Bool → List (Instr α) → Bool
  | h, [] => !h
  | h, Instr.lock :: p => !h && bal true p
  | h, Instr.unlock :: p => h && bal false p
  | h, Instr.load :: p => bal h p
  | h, Instr.store _ :: p => bal h p

/-- The lock is held by a goroutine of the group, every goroutine releases the
lock it takes, and a goroutine that has returned has no step left. -/
structure WF (g : Group α) : Prop where
  holder : ∀ i, g.writer = some i → i < g.threads.length
  shape : ∀ i t, g.threads[i]? = some t →
    bal (decide (g.writer = some i)) t.prog = true ∧ (t.done = true → t.prog = [])

/-- The error recorded is the error of a goroutine, and while none is recorded
no goroutine has returned an error. -/
structure ErrInv (g : Group α) : Prop where
  some_mem : ∀ e, g.err = some e → some e ∈ g.threads.map (fun t => t.ret)
  none_done : g.err = none → ∀ t ∈ g.threads, t.done = true → t.ret = none

/-- An append to the shared slice made under the lock. -/
def lockedAppend (x : α) : List (Instr α) :=
  [Instr.lock, Instr.load, Instr.store x, Instr.unlock]

/-- The elements a program still has to append. -/
def stores : List (Instr α) → List α
  | [] => []
  | Instr.store x :: p => x :: stores p
  | _ :: p => stores p

/-- The elements the goroutines of the group still have to append. -/
def pending (g : Group α) : List α :=
  g.threads.flatMap (fun t => stores t.prog)

/-- Where goroutine `i` stands in a program made of locked appends only. -/
inductive Phase (g : Group α) (i : Nat) (t : Goroutine α) : Prop
  | idle (xs : List α) (hp : t.prog = xs.flatMap lockedAppend) (hw : g.writer ≠ some i)
  | locked (x : α) (xs : List α)
    (hp : t.prog = Instr.load :: Instr.store x :: Instr.unlock :: xs.flatMap lockedAppend)
    (hw : g.writer = some i)
  | loaded (x : α) (xs : List α)
    (hp : t.prog = Instr.store x :: Instr.unlock :: xs.flatMap lockedAppend)
    (hw : g.writer = some i) (hr : t.reg = g.var)
  | stored (xs : List α) (hp : t.prog = Instr.unlock :: xs.flatMap lockedAppend)
    (hw : g.writer = some i)

/-- The invariant of a group whose goroutines only make locked appends: the
shared slice is the initial one followed by the elements appended so far, and
these together with the pending ones are the elements `total`. -/
structure Lin (init total : List α) (g : Group α) : Prop where
  phase : ∀ i t, g.threads[i]? = some t → Phase g i t
  perm : ∃ w, g.var = init ++ w ∧ (w ++ g.pending).Perm total

/-- The schedule that runs the goroutines one after the other, each to its end
(at most a load, a store and the return), in the order `order`. -/
def serial (order : List Nat) : List Nat :=
  order.flatMap (fun i => [i, i, i])

/-- The elements goroutine `i` has to append. -/
def storesAt (g : Group α) (i : Nat) : List α :=
  match g.threads[i]? with
  | some t => stores t.prog
  | none => []

end Group

/-! ## `Linter.getErrors`, `Linter.addError` -/

/-- The method `Linter.getErrors`. -/
def Linter.getErrors {ρ : Type} (linter : Linter ρ) : List (Error ρ) :=
  linter.Errors

/-- The method `Linter.addError`, run without interruption. -/
def Linter.addError {ρ : Type} (linter : Linter ρ) (error : Error ρ) : Linter ρ :=
  { linter with Errors := linter.Errors ++ [error] }

/-- The steps of `Linter.addError`: `Lock`, read `linter.Errors`, assign the
appended slice, deferred `Unlock`. -/
def addError.prog {ρ : Type} (error : Error ρ) : List (Instr (Error ρ)) :=
  [Instr.lock, Instr.load, Instr.store error, Instr.unlock]

/-- A goroutine that calls `linter.addError(error)` and returns. -/
def addError.goroutine {ρ : Type} (error : Error ρ) : Goroutine (Error ρ) :=
  { prog := addError.prog error, reg := [], ret := none, done := false }

/-- Goroutines calling `addError` concurrently on the records `errors`, one
each, on a linter whose lock is free. -/
def addError.group {ρ : Type} (linter : Linter ρ) (errors : List (Error ρ)) :
    Group (Error ρ) :=
  { var := linter.Errors, writer := none, err := none,
    threads := errors.map addError.goroutine }

/-! ## Loop variables captured by goroutines

`validateFile` and `Run` start their goroutines in a `for ... range` loop, and
the function literals use the loop variable (`rule`, `entrypoint`) without
copying it.  Whether every iteration has a variable of its own depends on
the Go version the module declares (one variable per iteration from go 1.22
on, one variable for the whole loop before), which `linter.go` does not fix.
With one variable for the loop, a goroutine finds in it the value of the
iteration the loop has reached when the goroutine reads it. -/

/-- For the goroutine started in iteration `i` of a loop: the iteration whose
value it finds in the loop variable at its first read (`first i`) and at its
second read (`second i`). -/
structure Capture where
  first : Nat → Nat
  second : Nat → Nat

/-- Every goroutine finds the value of its own iteration: always so when every
iteration has a variable of its own, and, with one variable for the loop, when
every goroutine reads it before the loop moves on. -/
def Capture.own : Capture :=
  { first := fun i => i, second := fun i => i }

/-- One variable for the loop, and the goroutines run after the loop over `n`
values has ended: every goroutine finds the value of the last iteration. -/
def Capture.last (n : Nat) : Capture :=
  { first := fun _ => n - 1, second := fun _ => n - 1 }

/-- What one variable for a loop over `n` values allows: a goroutine reads at or
after its own iteration, and its second read is not before its first. -/
def Capture.admissible (capture : Capture) (n : Nat) : Bool :=
  (List.range n).all (fun i =>
    decide (i ≤ capture.first i) && decide (capture.first i ≤ capture.second i) &&
      decide (capture.second i < n))

/-- The value found in the loop variable of a loop over `xs` when the loop is in
iteration `k`, by the goroutine whose own value is `own`. -/
def Capture.value {β : Type} (xs : List β) (k : Nat) (own : β) : β :=
  (xs[k]?).getD own

/-- For each iteration of a loop over `xs`, the values its goroutine finds in the
loop variable at its first and at its second read. -/
def Capture.reads {β : Type} (capture : Capture) (xs : List β) : List (β × β) :=
  xs.enum.map (fun p =>
    (Capture.value xs (capture.first p.1) p.2, Capture.value xs (capture.second p.1) p.2))

/-! ## `Linter.validateFile` -/

/-- The goroutine `validateFile` starts in one iteration: it calls
`rule.Validate(withoutExt)` on the value `atValidate` it finds in `rule`,
returns the error if there is one, and, if the name is not valid, appends to
the shared `errRules` the value `atAppend` it then finds in `rule`.  The
append is not guarded by a lock. -/
def validateFile.goroutine {ρ : Type} [Rule ρ] (withoutExt : GoString)
    (atValidate atAppend : ρ) : Goroutine ρ :=
  match Rule.Validate atValidate withoutExt with
  | (_, some err) => { prog := [], reg := [], ret := some err, done := false }
  | (true, none) => { prog := [], reg := [], ret := none, done := false }
  | (false, none) =>
    { prog := [Instr.load, Instr.store atAppend], reg := [], ret := none, done := false }

/-- The group of `validateFile`: `errRules` starts empty, one goroutine per
iteration of the loop over `rules[ext]`. -/
def validateFile.group {ρ : Type} [Rule ρ] (rules : RuleBucket ρ) (path : GoString)
    (capture : Capture) : Group ρ :=
  { var := [], writer := none, err := none,
    threads := (capture.reads (rules.get (Ext path))).map
      (fun p => validateFile.goroutine (withoutExt path) p.1 p.2) }

/-- The rules `Validate` is called on, one per goroutine of `validateFile`. -/
def validateFile.evaluated {ρ : Type} (rules : RuleBucket ρ) (path : GoString)
    (capture : Capture) : List ρ :=
  (capture.reads (rules.get (Ext path))).map Prod.fst

/-- What `validateFile` does after `g.Wait()`: the error it returns and the
record it passes to `addError`, if any. -/
def validateFile.result {ρ : Type} (path : GoString) (g : Group ρ) :
    Option GoError × Option (Error ρ) :=
  match g.err with
  | some err => (some err, none)
  | none =>
    if 0 < g.var.length then (none, some { Path := path, Rules := g.var })
    else (none, none)

/-- The body of `validateFile` up to the call of `addError`, for the values
`capture` the goroutines find in `rule` and the interleaving `sched` of the
goroutines. -/
def validateFile.core {ρ ι : Type} [Rule ρ] (config : Config ρ ι) (index : ι)
    (path : GoString) (capture : Capture) (sched : List Nat) :
    Option GoError × Option (Error ρ) :=
  validateFile.result path
    (Group.exec sched (validateFile.group (config.getConfig index path) path capture))

/-- The method `Linter.validateFile`, for the values `capture` its goroutines
find in `rule` and the interleaving `sched` of the goroutines: the error
returned and the linter afterwards. -/
def Linter.validateFile {ρ ι : Type} [Rule ρ] (linter : Linter ρ) (config : Config ρ ι)
    (index : ι) (_entrypoint : GoString) (path : GoString) (capture : Capture)
    (sched : List Nat) : Option GoError × Linter ρ :=
  match validateFile.core config index path capture sched with
  | (err, some error) => (err, linter.addError error)
  | (err, none) => (err, linter)

/-- The rules of `rs` for which `Validate` reports the name `withoutExt` as not
valid, without error. -/
def validateFile.failing {ρ : Type} [Rule ρ] (withoutExt : GoString) (rs : List ρ) : List ρ :=
  rs.filter (fun rule => decide (Rule.Validate rule withoutExt = (false, none)))

/-! ## `Linter.validateDir`, `filepath.Walk`, `Linter.Run` -/

/-- The method `Linter.validateDir`: it resolves the rules of the directory,
writes one log line and returns `nil` (the log line is not modelled). -/
def Linter.validateDir {ρ ι : Type} (_config : Config ρ ι) (_index : ι) (_path : GoString) :
    Option GoError :=
  none

/-- What `os.Lstat` and the directory listing show of a path during the walk:
nothing (`Lstat` fails with `err`), a file, or a directory with the error of
its listing, if any, and its entries by name. -/
inductive FsNode
  | missing (err : GoError)
  | file
  | dir (readErr : Option GoError) (entries : List (GoString × FsNode))

/-- The `os.FileInfo` the walk hands to its callback. -/
structure FileInfo where
  IsDir : Bool
  deriving DecidableEq, Repr

/-- The method `info.IsDir()` of the node found by `lstat`. -/
def FsNode.IsDir : FsNode → Bool
  | FsNode.dir _ _ => true
  | _ => false

/-- Whether the loop of `walk` returns `err` after the entry `node`: when `lstat`
failed on the entry, if the callback's error is neither `nil` nor `SkipDir`;
otherwise if the error of the recursive `walk` is not `nil` and the entry is
not a directory or the error is not `SkipDir`. -/
def walkEntries.stops (node : FsNode) (err : Option GoError) : Bool :=
  match node with
  | FsNode.missing _ => err.isSome && err != some GoError.SkipDir
  | _ => err.isSome && (!node.IsDir || err != some GoError.SkipDir)

mutual
/-- The function `walk` of `path/filepath`, with the callback returning, besides
its error, the records it passed to `addError`.  `walk` is only called on a
node `lstat` found; the case `missing` stands for the caller's branch
`walkFn(path, nil, err)`.  `join` is `filepath.Join`. -/
def walk {β : Type} (join : GoString → GoString → GoString)
    (walkFn : GoString → Option FileInfo → Option GoError → List β × Option GoError)
    (path : GoString) : FsNode → List β × Option GoError
  | FsNode.missing err => walkFn path none (some err)
  | FsNode.file => walkFn path (some { IsDir := false }) none
  | FsNode.dir readErr entries =>
    match walkFn path (some { IsDir := true }) readErr with
    | (out1, err1) =>
      if readErr.isSome || err1.isSome then (out1, err1)
      else
        match walkEntries join walkFn path entries with
        | (out2, err2) => (out1 ++ out2, err2)
/-- The loop of `walk` over the names of a directory. -/
def walkEntries {β : Type} (join : GoString → GoString → GoString)
    (walkFn : GoString → Option FileInfo → Option GoError → List β × Option GoError)
    (path : GoString) : List (GoString × FsNode) → List β × Option GoError
  | [] => ([], none)
  | (name, node) :: rest =>
    match walk join walkFn (join path name) node with
    | (out, err) =>
      if walkEntries.stops node err then (out, err)
      else
        match walkEntries join walkFn path rest with
        | (out', err') => (out ++ out', err')
end

/-- The function `filepath.Walk`. -/
def Walk {β : Type} (join : GoString → GoString → GoString)
    (walkFn : GoString → Option FileInfo → Option GoError → List β × Option GoError)
    (root : GoString) (node : FsNode) : List β × Option GoError :=
  match walk join walkFn root node with
  | (out, err) =>
    if err = some GoError.SkipDir ∨ err = some GoError.SkipAll then (out, none)
    else (out, err)

/-- The function literal `Run` passes to `filepath.Walk`; `entrypoint` is the
value it finds in the loop variable when it formats the error.
`(inner path).1` are the values the rule goroutines of the file `path` find in
`rule`, `(inner path).2` is their interleaving. -/
def Run.walkFn {ρ ι : Type} [Rule ρ] (config : Config ρ ι) (index : ι)
    (inner : GoString → Capture × List Nat) (entrypoint : GoString)
    (path : GoString) (info : Option FileInfo) (_err : Option GoError) :
    List (Error ρ) × Option GoError :=
  match info with
  | none => ([], some (GoError.msg (entrypoint ++ " not found".toList)))
  | some info =>
    if info.IsDir then ([], Linter.validateDir config index path)
    else
      match validateFile.core config index path (inner path).1 (inner path).2 with
      | (err, some error) => ([error], err)
      | (err, none) => ([], err)

/-- The records a walker passes to `addError`, in order, and the error it
returns: `root` is the value it finds in `entrypoint` when it calls
`filepath.Walk`, `named` the value it finds there when the callback formats
the error. -/
def Run.walk {ρ ι : Type} [Rule ρ] (config : Config ρ ι) (index : ι)
    (fs : GoString → FsNode) (join : GoString → GoString → GoString)
    (inner : GoString → Capture × List Nat) (root named : GoString) :
    List (Error ρ) × Option GoError :=
  Walk join (Run.walkFn config index inner named) root (fs root)

/-- The goroutine `Run` starts in one iteration. -/
def Run.walker {ρ ι : Type} [Rule ρ] (config : Config ρ ι) (index : ι)
    (fs : GoString → FsNode) (join : GoString → GoString → GoString)
    (inner : GoString → Capture × List Nat) (root named : GoString) :
    Goroutine (Error ρ) :=
  { prog := (Run.walk config index fs join inner root named).1.flatMap addError.prog,
    reg := [],
    ret := (Run.walk config index fs join inner root named).2,
    done := false }

/-- The walkers `Run` starts, one per iteration of the loop over the
entrypoints: walker `i` walks the value it finds in `entrypoint` at its first
read and names the value it finds at its second read; `inner i` gives the
executions of `validateFile` on the files it reaches. -/
def Run.walkers {ρ ι : Type} [Rule ρ] (config : Config ρ ι) (index : ι)
    (fs : GoString → FsNode) (join : GoString → GoString → GoString)
    (capture : Capture) (inner : Nat → GoString → Capture × List Nat) :
    List (Goroutine (Error ρ)) :=
  config.getLs.enum.map
    (fun p => Run.walker config index fs join (inner p.1)
      (Capture.value config.getLs (capture.first p.1) p.2)
      (Capture.value config.getLs (capture.second p.1) p.2))

/-- The method `Run` up to `g.Wait()`: the error of `getIndex`, in which case no
goroutine is started, or the group of walkers sharing `linter.Errors` under
the linter's lock. -/
def Run.start {ρ ι : Type} [Rule ρ] (linter : Linter ρ) (config : Config ρ ι)
    (fs : GoString → FsNode) (join : GoString → GoString → GoString)
    (capture : Capture) (inner : Nat → GoString → Capture × List Nat) :
    Except GoError (Group (Error ρ)) :=
  match config.getIndex config.getLs with
  | (_, some err) => Except.error err
  | (index, none) =>
    Except.ok
      { var := linter.Errors, writer := none, err := none,
        threads := Run.walkers config index fs join capture inner }

/-- The method `Linter.Run`: the error returned and the linter afterwards, for
the filesystem `fs`, the values `capture` the walkers find in `entrypoint`,
the executions `inner` of `validateFile` and the interleaving `outer` of the
walkers. -/
def Linter.Run {ρ ι : Type} [Rule ρ] (linter : Linter ρ) (config : Config ρ ι)
    (fs : GoString → FsNode) (join : GoString → GoString → GoString)
    (capture : Capture) (inner : Nat → GoString → Capture × List Nat) (outer : List Nat) :
    Option GoError × Linter ρ :=
  match Run.start linter config fs join capture inner with
  | Except.error err => (some err, linter)
  | Except.ok g => ((Group.exec outer g).err, { linter with Errors := (Group.exec outer g).var })

mutual
/-- The paths of the files in the tree `node` found at `path`. -/
def FsNode.filePaths (join : GoString → GoString → GoString) (path : GoString) :
    FsNode → List GoString
  | FsNode.missing _ => []
  | FsNode.file => [path]
  | FsNode.dir _ entries => FsNode.entriesFilePaths join path entries
/-- The paths of the files in the entries of the directory `path`. -/
def FsNode.entriesFilePaths (join : GoString → GoString → GoString) (path : GoString) :
    List (GoString × FsNode) → List GoString
  | [] => []
  | (name, node) :: rest =>
    FsNode.filePaths join (join path name) node ++ FsNode.entriesFilePaths join path rest
end

/-- The function `filepath.Join` on a clean directory path and a plain name. -/
def joinClean (path name : GoString) : GoString :=
  path ++ '/' :: name

/-- The callback of `Run` passes a record to `addError` for files only, and the
record carries the path of the file. -/
structure WalkFnOut {ρ : Type}
    (walkFn : GoString → Option FileInfo → Option GoError → List (Error ρ) × Option GoError) :
    Prop where
  missing : ∀ path err, (walkFn path none err).1 = []
  dir : ∀ path err, (walkFn path (some { IsDir := true }) err).1 = []
  file : ∀ path err,
    ((walkFn path (some { IsDir := false }) err).1.map Error.Path).Sublist [path]

/-! ## Sample rules and configurations -/

/-- Three sample rules: names without upper-case letters, names of at most 20
characters, and a rule whose validation itself fails. -/
inductive DemoRule
  | lowercaseOnly
  | maxLength20
  | broken
  deriving DecidableEq, Repr

instance : Rule DemoRule where
  Validate rule name :=
    match rule with
    | DemoRule.lowercaseOnly => (name.all (fun c => !c.isUpper), none)
    | DemoRule.maxLength20 => (decide (name.length ≤ 20), none)
    | DemoRule.broken => (false, some (GoError.msg "malformed pattern".toList))

/-- A configuration that resolves every path to the bucket `rules` and scans
the entrypoints `ls`. -/
def demoConfig (ls : List GoString) (rules : RuleBucket DemoRule) : Config DemoRule Unit :=
  { getLs := ls, getIndex := fun _ => ((), none), getConfig := fun _ _ => rules }

/-- A configuration whose index cannot be resolved. -/
def brokenIndexConfig : Config DemoRule Unit :=
  { getLs := ["a".toList],
    getIndex := fun _ => ((), some (GoError.msg "invalid configuration".toList)),
    getConfig := fun _ _ => [] }

/-- A filesystem with the directory `a`, holding the files `LOUD.txt` and
`ok.txt`, the directory `b`, holding the files `SHOUT.txt` and `Mixed.txt`,
and nothing else. -/
def demoFs : GoString → FsNode := fun entrypoint =>
  if entrypoint = "a".toList then
    FsNode.dir none [("LOUD.txt".toList, FsNode.file), ("ok.txt".toList, FsNode.file)]
  else if entrypoint = "a/LOUD.txt".toList then FsNode.file
  else if entrypoint = "b".toList then
    FsNode.dir none [("SHOUT.txt".toList, FsNode.file), ("Mixed.txt".toList, FsNode.file)]
  else FsNode.missing (GoError.msg "lstat: no such file or directory".toList)

/-- A linter with no record. -/
def emptyLinter : Linter DemoRule :=
  { Entrypoint := [], Errors := [] }

/-- The bucket with both sample naming rules stored under `.txt`. -/
def txtRules : RuleBucket DemoRule :=
  [(".txt".toList, [DemoRule.lowercaseOnly, DemoRule.maxLength20])]

/-! ### Facts about the path functions -/

theorem lastElemRev_cons (c : Char) (rev : List Char) :
    lastElemRev (c :: rev) = if c = '/' then [] else c :: lastElemRev rev := by
  by_cases h : c = '/' <;> simp [lastElemRev, List.takeWhile_cons, IsPathSeparator, h]

theorem extTailRev_cons (c : Char) (rev : List Char) :
    extTailRev (c :: rev) = if c = '/' ∨ c = '.' then [] else c :: extTailRev rev := by
  by_cases h : c = '/' <;> by_cases h2 : c = '.' <;>
    simp [extTailRev, List.takeWhile_cons, IsPathSeparator, h, h2]

theorem Ext.scan_eq (rev acc : List Char) :
    Ext.scan rev acc =
      if '.' ∈ lastElemRev rev then '.' :: ((extTailRev rev).reverse ++ acc) else [] := by
  induction rev generalizing acc with
  | nil => simp [Ext.scan, lastElemRev]
  | cons c rev ih =>
    by_cases h1 : c = '/'
    · subst h1; simp [Ext.scan, lastElemRev_cons, IsPathSeparator]
    · by_cases h2 : c = '.'
      · subst h2; simp [Ext.scan, lastElemRev_cons, extTailRev_cons, IsPathSeparator]
      · have h3 : ¬ '.' = c := fun h => h2 h.symm
        simp [Ext.scan, lastElemRev_cons, extTailRev_cons, IsPathSeparator, h1, h2, h3, ih]

theorem lastElemRev_split (rev : List Char) (h : '.' ∈ lastElemRev rev) :
    ∃ rest, lastElemRev rev = extTailRev rev ++ '.' :: rest := by
  induction rev with
  | nil => simp [lastElemRev] at h
  | cons c rev ih =>
    by_cases h1 : c = '/'
    · subst h1; simp [lastElemRev_cons] at h
    · by_cases h2 : c = '.'
      · subst h2
        exact ⟨lastElemRev rev, by simp [lastElemRev_cons, extTailRev_cons]⟩
      · have h3 : ¬ '.' = c := fun h => h2 h.symm
        simp only [lastElemRev_cons, h1, if_false, List.mem_cons, h3, false_or] at h
        obtain ⟨rest, hr⟩ := ih h
        exact ⟨rest, by simp [lastElemRev_cons, extTailRev_cons, h1, h2, hr]⟩

theorem extTailRev_no_dot (rev : List Char) : '.' ∉ extTailRev rev := by
  intro h
  have := List.mem_takeWhile_imp h
  simp at this

theorem extTailRev_no_sep (rev : List Char) : '/' ∉ extTailRev rev := by
  intro h
  have := List.mem_takeWhile_imp h
  simp [IsPathSeparator] at this

theorem lastElemRev_no_sep (rev : List Char) : '/' ∉ lastElemRev rev := by
  intro h
  have := List.mem_takeWhile_imp h
  simp [IsPathSeparator] at this

/-- Closed form of `filepath.Ext`. -/
theorem Ext_eq (path : GoString) :
    Ext path =
      if '.' ∈ lastElemRev path.reverse then '.' :: (extTailRev path.reverse).reverse
      else [] := by
  simp [Ext, Ext.scan_eq]

theorem TrimSuffix_append (s suffix : GoString) (h : suffix <:+ s) :
    TrimSuffix s suffix ++ suffix = s := by
  obtain ⟨t, rfl⟩ := h
  have : suffix.isSuffixOf (t ++ suffix) = true := by
    simp [List.isSuffixOf_iff_suffix]
  simp [TrimSuffix, this]

/-- When `filepath.Ext` finds a dot, the path does not end in a separator and
`filepath.Base` is the part after the last separator. -/
theorem Base_of_dot (path : GoString) (h : '.' ∈ lastElemRev path.reverse) :
    Base path = (lastElemRev path.reverse).reverse := by
  have hne : path ≠ [] := by
    rintro rfl; simp [lastElemRev] at h
  cases hr : path.reverse with
  | nil => simp at hr; exact absurd hr hne
  | cons c rev =>
    rw [hr] at h
    have hc : c ≠ '/' := by
      rintro rfl; simp [lastElemRev_cons] at h
    have hd : (c :: rev).dropWhile IsPathSeparator = c :: rev := by
      simp [List.dropWhile_cons, IsPathSeparator, hc]
    have hl : lastElemRev (c :: rev) ≠ [] := by
      simp [lastElemRev_cons, hc]
    simp [Base, hne, hr, hd, hl]

/-- For a non-empty path that does not end in a separator, `filepath.Base` is the
part after the last separator. -/
theorem Base_of_no_trailing_sep (path : GoString) (c : Char) (rev : List Char)
    (hr : path.reverse = c :: rev) (hc : c ≠ '/') :
    Base path = (lastElemRev path.reverse).reverse := by
  have hne : path ≠ [] := by
    rintro rfl; simp at hr
  have hd : (c :: rev).dropWhile IsPathSeparator = c :: rev := by
    simp [List.dropWhile_cons, IsPathSeparator, hc]
  have hl : lastElemRev (c :: rev) ≠ [] := by
    simp [lastElemRev_cons, hc]
  simp [Base, hne, hr, hd, hl]

theorem Ext_eq_nil_iff (path : GoString) :
    Ext path = [] ↔ '.' ∉ lastElemRev path.reverse := by
  rw [Ext_eq]
  by_cases h : '.' ∈ lastElemRev path.reverse <;> simp [h]

theorem Ext_suffix_Base (path : GoString) : Ext path <:+ Base path := by
  by_cases h : '.' ∈ lastElemRev path.reverse
  · obtain ⟨rest, hr⟩ := lastElemRev_split _ h
    rw [Ext_eq, if_pos h, Base_of_dot path h, hr]
    exact ⟨rest.reverse, by simp⟩
  · rw [(Ext_eq_nil_iff path).2 h]
    exact List.nil_suffix

theorem Ext_eq_nil_iff_Base (path : GoString) :
    Ext path = [] ↔ ('.' ∉ Base path ∨ path.getLast? = some '/' ∨ path = []) := by
  rw [Ext_eq_nil_iff]
  constructor
  · intro h
    cases hr : path.reverse with
    | nil => right; right; simpa using hr
    | cons c rev =>
      by_cases hc : c = '/'
      · right; left
        have : path = (c :: rev).reverse := by rw [← hr, List.reverse_reverse]
        rw [this, hc]; simp
      · left
        rw [Base_of_no_trailing_sep path c rev hr hc]
        simpa using h
  · rintro (h | h | h)
    · intro hd
      apply h
      rw [Base_of_dot path hd]
      simpa using hd
    · have : path.reverse.head? = some '/' := by simpa using h
      cases hr : path.reverse with
      | nil => simp [lastElemRev]
      | cons c rev =>
        rw [hr] at this
        simp at this
        subst this
        simp [lastElemRev_cons]
    · subst h; simp [lastElemRev]

/-- C10: for every path, the extension `ext = filepath.Ext(path)` and the
candidate name `strings.TrimSuffix(filepath.Base(path), ext)` that
`validateFile` passes to `Rule.Validate` split the basename exactly:
`candidate ++ ext = filepath.Base(path)`.  The extension is either empty or
the suffix of the basename that starts at its last dot: it begins with `.`
and contains no other `.` and no path separator.  It is empty exactly when
the part of the path after its last separator has no dot, that is, when the
basename has no dot, or the path ends in a separator, or the path is empty.
For `dir/a.b.c` the extension is `.c` and the candidate is `a.b`. -/
theorem C10_candidate_and_ext_split_basename (path : GoString) :
    withoutExt path ++ Ext path = Base path ∧
    (Ext path = [] ∨
      ∃ rest, Ext path = '.' :: rest ∧ '.' ∉ rest ∧ '/' ∉ rest ∧
        Base path = withoutExt path ++ '.' :: rest) ∧
    (Ext path = [] ↔ '.' ∉ lastElemRev path.reverse) ∧
    (Ext path = [] ↔ ('.' ∉ Base path ∨ path.getLast? = some '/' ∨ path = [])) ∧
    Ext "dir/a.b.c".toList = ".c".toList ∧
    withoutExt "dir/a.b.c".toList = "a.b".toList := by
  have hsplit : withoutExt path ++ Ext path = Base path :=
    TrimSuffix_append _ _ (Ext_suffix_Base path)
  refine ⟨hsplit, ?_, Ext_eq_nil_iff path, Ext_eq_nil_iff_Base path, by decide, by decide⟩
  by_cases h : '.' ∈ lastElemRev path.reverse
  · right
    have he : Ext path = '.' :: (extTailRev path.reverse).reverse := by
      rw [Ext_eq, if_pos h]
    refine ⟨(extTailRev path.reverse).reverse, he, ?_, ?_, ?_⟩
    · simpa using extTailRev_no_dot path.reverse
    · simpa using extTailRev_no_sep path.reverse
    · rw [← he]; exact hsplit.symm
  · left
    exact (Ext_eq_nil_iff path).2 h

/-! ### Facts about groups of goroutines -/

theorem getElem?_split {β : Type} (l : List β) (i : Nat) (t : β) (h : l[i]? = some t) :
    ∃ l1 l2, l = l1 ++ t :: l2 ∧ l1.length = i ∧ ∀ t', l.set i t' = l1 ++ t' :: l2 := by
  induction l generalizing i with
  | nil => simp at h
  | cons a l ih =>
    cases i with
    | zero =>
      simp at h
      subst h
      exact ⟨[], l, rfl, rfl, fun _ => rfl⟩
    | succ i =>
      simp at h
      obtain ⟨l1, l2, h1, h2, h3⟩ := ih i h
      exact ⟨a :: l1, l2, by simp [h1], by simp [h2], fun t' => by simp [h3 t']⟩

namespace Group

variable {α : Type}

theorem step_cases (i : Nat) (g : Group α) :
    step i g = g ∨
      ∃ t, g.threads[i]? = some t ∧ t.done = false ∧ StepSpec g i t (step i g) := by
  unfold step
  cases ht : g.threads[i]? with
  | none => left; rfl
  | some t =>
    obtain ⟨prog, reg, ret, done⟩ := t
    cases done with
    | true => left; rfl
    | false =>
      cases prog with
      | nil => right; exact ⟨_, rfl, rfl, StepSpec.ret rfl⟩
      | cons a p =>
        cases a with
        | lock =>
          cases hw : g.writer with
          | some j => left; simp [hw]
          | none =>
            right
            refine ⟨_, rfl, rfl, ?_⟩
            have := @StepSpec.lock α g i ⟨Instr.lock :: p, reg, ret, false⟩ p rfl hw
            simpa [hw] using this
        | unlock => right; exact ⟨_, rfl, rfl, StepSpec.unlock p rfl⟩
        | load => right; exact ⟨_, rfl, rfl, StepSpec.load p rfl⟩
        | store x => right; exact ⟨_, rfl, rfl, StepSpec.store x p rfl⟩

/-- A property every step preserves holds after any run. -/
theorem run_induction (P : Group α → Prop) (hstep : ∀ i g, P g → P (step i g))
    (sched : List Nat) (g : Group α) (h : P g) : P (run sched g) := by
  induction sched generalizing g with
  | nil => exact h
  | cons i sched ih => exact ih (step i g) (hstep i g h)

theorem drain_induction (P : Group α → Prop) (hstep : ∀ i g, P g → P (step i g))
    (fuel : Nat) (g : Group α) (h : P g) : P (drain fuel g) := by
  induction fuel generalizing g with
  | zero => exact h
  | succ fuel ih =>
    unfold drain
    cases (List.range g.threads.length).find? g.enabled with
    | none => exact h
    | some i => exact ih (step i g) (hstep i g h)

/-- A property every step preserves holds after any execution. -/
theorem exec_induction (P : Group α → Prop) (hstep : ∀ i g, P g → P (step i g))
    (sched : List Nat) (g : Group α) (h : P g) : P (exec sched g) :=
  drain_induction P hstep _ _ (run_induction P hstep sched g h)

theorem step_of_enabled (i : Nat) (g : Group α) (h : g.enabled i = true) :
    ∃ t, g.threads[i]? = some t ∧ t.done = false ∧ StepSpec g i t (step i g) := by
  rcases step_cases i g with hs | hs
  · exfalso
    unfold enabled at h
    unfold step at hs
    cases ht : g.threads[i]? with
    | none => simp [ht] at h
    | some t =>
      obtain ⟨prog, reg, ret, done⟩ := t
      have hlen : i < g.threads.length := by
        rcases List.getElem?_eq_some.1 ht with ⟨hl, _⟩
        exact hl
      have hne : ∀ t', g.threads.set i t' = g.threads → t' = ⟨prog, reg, ret, done⟩ := by
        intro t' ht'
        have h1 : (g.threads.set i t')[i]? = some t' := by
          simp [List.getElem?_set, hlen]
        rw [ht', ht] at h1
        exact (Option.some.inj h1).symm
      simp only [ht] at h hs
      cases done with
      | true => simp at h
      | false =>
        cases prog with
        | nil =>
          have h2 := congrArg Group.threads hs
          have := hne _ h2
          simp at this
        | cons a p =>
          cases a with
          | lock =>
            cases hw : g.writer with
            | some j => simp [hw] at h
            | none =>
              simp only [hw] at hs
              have h2 := congrArg Group.writer hs
              simp [hw] at h2
          | unlock =>
            have h2 := congrArg Group.threads hs
            have := hne _ h2
            simp at this
          | load =>
            have h2 := congrArg Group.threads hs
            have := hne _ h2
            simp at this
          | store x =>
            have h2 := congrArg Group.threads hs
            have := hne _ h2
            simp at this
  · exact hs

theorem StepSpec.threads_eq {g g' : Group α} {i : Nat} {t : Goroutine α}
    (h : StepSpec g i t g') : ∃ t', g'.threads = g.threads.set i t' ∧ t'.ret = t.ret ∧
      Goroutine.remaining t' + 1 = (if t.done then 1 else t.prog.length + 1) := by
  cases h with
  | ret hp => exact ⟨_, rfl, rfl, by simp [Goroutine.remaining, hp]⟩
  | lock p hp hw =>
    refine ⟨_, rfl, rfl, ?_⟩
    cases hd : t.done <;> simp [Goroutine.remaining, hp, hd]
  | unlock p hp =>
    refine ⟨_, rfl, rfl, ?_⟩
    cases hd : t.done <;> simp [Goroutine.remaining, hp, hd]
  | load p hp =>
    refine ⟨_, rfl, rfl, ?_⟩
    cases hd : t.done <;> simp [Goroutine.remaining, hp, hd]
  | store x p hp =>
    refine ⟨_, rfl, rfl, ?_⟩
    cases hd : t.done <;> simp [Goroutine.remaining, hp, hd]

theorem step_threads (i : Nat) (g : Group α) :
    (step i g).threads = g.threads ∨
      ∃ t t', g.threads[i]? = some t ∧ (step i g).threads = g.threads.set i t' ∧
        t'.ret = t.ret := by
  rcases step_cases i g with hs | ⟨t, ht, _, hs⟩
  · left; rw [hs]
  · obtain ⟨t', h1, h2, _⟩ := hs.threads_eq
    exact Or.inr ⟨t, t', ht, h1, h2⟩

theorem step_length (i : Nat) (g : Group α) :
    (step i g).threads.length = g.threads.length := by
  rcases step_threads i g with h | ⟨_, _, _, h, _⟩ <;> simp [h]

theorem step_rets (i : Nat) (g : Group α) :
    (step i g).threads.map (fun t => t.ret) = g.threads.map (fun t => t.ret) := by
  rcases step_threads i g with h | ⟨t, t', ht, h, hr⟩
  · rw [h]
  · obtain ⟨l1, l2, h1, _, h3⟩ := getElem?_split _ _ _ ht
    rw [h, h3 t', h1]
    simp [hr]

/-- An enabled step uses up exactly one of the steps that remain. -/
theorem remaining_step (i : Nat) (g : Group α) (h : g.enabled i = true) :
    (step i g).remaining + 1 = g.remaining := by
  obtain ⟨t, ht, hd, hs⟩ := step_of_enabled i g h
  obtain ⟨t', h1, _, h2⟩ := hs.threads_eq
  obtain ⟨l1, l2, h3, _, h4⟩ := getElem?_split _ _ _ ht
  have ht0 : Goroutine.remaining t = t.prog.length + 1 := by
    simp [Goroutine.remaining, hd]
  simp only [hd, Bool.false_eq_true, if_false] at h2
  unfold remaining
  rw [h1, h4 t', h3]
  simp only [List.map_append, List.map_cons, List.sum_append, List.sum_cons]
  omega

theorem getElem?_set_cases {β : Type} (l : List β) (i j : Nat) (a b : β)
    (h : (l.set i a)[j]? = some b) : (i = j ∧ b = a) ∨ (i ≠ j ∧ l[j]? = some b) := by
  rw [List.getElem?_set] at h
  by_cases hij : i = j
  · left
    rw [if_pos hij] at h
    by_cases hl : i < l.length
    · rw [if_pos hl] at h
      exact ⟨hij, (Option.some.inj h).symm⟩
    · rw [if_neg hl] at h
      exact absurd h (by simp)
  · right
    rw [if_neg hij] at h
    exact ⟨hij, h⟩

theorem WF.step_wf {g : Group α} (h : WF g) (i : Nat) : WF (step i g) := by
  rcases step_cases i g with hs | ⟨t, ht, hd, hs⟩
  · rw [hs]; exact h
  · have hlen : i < g.threads.length := (List.getElem?_eq_some.1 ht).1
    have hti := h.shape i t ht
    generalize Group.step i g = g' at hs
    cases hs with
    | ret hp =>
      refine ⟨fun j hj => by simpa using h.holder j hj, fun j u hu => ?_⟩
      rcases getElem?_set_cases _ _ _ _ _ hu with ⟨rfl, rfl⟩ | ⟨_, hu'⟩
      · exact ⟨by simpa [hp] using hti.1, fun _ => hp⟩
      · exact h.shape j u hu'
    | lock p hp hw =>
      refine ⟨fun j hj => ?_, fun j u hu => ?_⟩
      · simp at hj; subst hj; simpa using hlen
      · rcases getElem?_set_cases _ _ _ _ _ hu with ⟨rfl, rfl⟩ | ⟨hij, hu'⟩
        · have := hti.1
          simp [hp, hw, bal] at this
          exact ⟨by simpa using this, fun hd' => by simp [hd] at hd'⟩
        · have := h.shape j u hu'
          simp only [hw] at this
          have hne : ¬ (some i = some j) := fun hh => hij (Option.some.inj hh)
          simpa [hne] using this
    | unlock p hp =>
      have hwi : g.writer = some i := by
        by_contra hne
        have := hti.1
        simp [hp, hne, bal] at this
      refine ⟨fun j hj => by simp at hj, fun j u hu => ?_⟩
      rcases getElem?_set_cases _ _ _ _ _ hu with ⟨rfl, rfl⟩ | ⟨hij, hu'⟩
      · have := hti.1
        simp [hp, hwi, bal] at this
        exact ⟨by simpa using this, fun hd' => by simp [hd] at hd'⟩
      · have := h.shape j u hu'
        have hne : ¬ (some i = some j) := fun hh => hij (Option.some.inj hh)
        simp only [hwi, hne, decide_False] at this
        simpa using this
    | load p hp =>
      refine ⟨fun j hj => by simpa using h.holder j hj, fun j u hu => ?_⟩
      rcases getElem?_set_cases _ _ _ _ _ hu with ⟨rfl, rfl⟩ | ⟨_, hu'⟩
      · have := hti.1
        simp only [hp, bal] at this
        exact ⟨this, fun hd' => by simp [hd] at hd'⟩
      · exact h.shape j u hu'
    | store x p hp =>
      refine ⟨fun j hj => by simpa using h.holder j hj, fun j u hu => ?_⟩
      rcases getElem?_set_cases _ _ _ _ _ hu with ⟨rfl, rfl⟩ | ⟨_, hu'⟩
      · have := hti.1
        simp only [hp, bal] at this
        exact ⟨this, fun hd' => by simp [hd] at hd'⟩
      · exact h.shape j u hu'

/-- No deadlock: when no goroutine can take a step, all have returned. -/
theorem WF.allDone_of_stuck {g : Group α} (h : WF g)
    (hs : (List.range g.threads.length).find? g.enabled = none) : g.allDone = true := by
  rw [List.find?_eq_none] at hs
  have hen : ∀ i t, g.threads[i]? = some t → g.enabled i = false := by
    intro i t ht
    have hlen : i < g.threads.length := (List.getElem?_eq_some.1 ht).1
    simpa using hs i (List.mem_range.2 hlen)
  -- the lock is free: its holder could take a step
  have hfree : g.writer = none := by
    cases hw : g.writer with
    | none => rfl
    | some k =>
      exfalso
      have hk := h.holder k hw
      obtain ⟨u, hu⟩ : ∃ u, g.threads[k]? = some u :=
        ⟨g.threads[k], List.getElem?_eq_getElem hk⟩
      have hb := h.shape k u hu
      have he := hen k u hu
      obtain ⟨prog, reg, ret, done⟩ := u
      simp only [enabled, hu] at he
      simp only [hw, decide_True] at hb
      cases done with
      | true => simp [hb.2 rfl, bal] at hb
      | false =>
        cases prog with
        | nil => simp [bal] at hb
        | cons a p => cases a <;> simp [bal] at hb he
  rw [allDone, List.all_eq_true]
  intro t htm
  obtain ⟨i, ht⟩ := List.mem_iff_getElem?.1 htm
  have he := hen i t ht
  obtain ⟨prog, reg, ret, done⟩ := t
  simp only [enabled, ht] at he
  cases done with
  | true => rfl
  | false =>
    cases prog with
    | nil => simp at he
    | cons a p => cases a <;> simp [hfree] at he

theorem allDone_of_remaining_zero (g : Group α) (h : g.remaining = 0) :
    g.allDone = true := by
  rw [allDone, List.all_eq_true]
  intro t ht
  unfold remaining at h
  rw [List.sum_eq_zero_iff] at h
  have := h (Goroutine.remaining t) (List.mem_map_of_mem _ ht)
  cases hd : t.done with
  | true => rfl
  | false => simp [Goroutine.remaining, hd] at this

theorem WF.drain_allDone (fuel : Nat) (g : Group α) (h : WF g) (hf : g.remaining ≤ fuel) :
    (drain fuel g).allDone = true := by
  induction fuel generalizing g with
  | zero => exact allDone_of_remaining_zero g (by omega)
  | succ fuel ih =>
    unfold drain
    cases hfind : (List.range g.threads.length).find? g.enabled with
    | none => exact h.allDone_of_stuck hfind
    | some i =>
      have he := List.find?_some hfind
      have := remaining_step i g he
      exact ih (Group.step i g) (h.step_wf i) (by omega)

/-- The call `g.Wait()` returns: after any execution every goroutine has returned. -/
theorem WF.exec_allDone {g : Group α} (h : WF g) (sched : List Nat) :
    (exec sched g).allDone = true :=
  WF.drain_allDone _ _ (run_induction WF (fun i _ hg => hg.step_wf i) sched g h) (le_refl _)

theorem WF.exec {g : Group α} (h : WF g) (sched : List Nat) : WF (exec sched g) :=
  exec_induction WF (fun i _ hg => hg.step_wf i) sched g h

theorem exec_rets (sched : List Nat) (g : Group α) :
    (exec sched g).threads.map (fun t => t.ret) = g.threads.map (fun t => t.ret) :=
  exec_induction (fun g' => g'.threads.map (fun t => t.ret) = g.threads.map (fun t => t.ret))
    (fun i g' h => (step_rets i g').trans h) sched g rfl

theorem ErrInv.step_errInv {g : Group α} (h : ErrInv g) (i : Nat) : ErrInv (step i g) := by
  rcases step_cases i g with hs | ⟨t, ht, hd, hs⟩
  · rw [hs]; exact h
  · have hmem : t ∈ g.threads := List.mem_iff_getElem?.2 ⟨i, ht⟩
    refine ⟨fun e he => ?_, ?_⟩
    · rw [step_rets]
      generalize Group.step i g = g' at hs he
      cases hs with
      | ret hp =>
        cases hg : g.err with
        | some e' =>
          simp only [hg] at he
          exact h.some_mem e (by rw [hg, he])
        | none =>
          simp only [hg] at he
          exact List.mem_map.2 ⟨t, hmem, he⟩
      | lock p hp hw => exact h.some_mem e he
      | unlock p hp => exact h.some_mem e he
      | load p hp => exact h.some_mem e he
      | store x p hp => exact h.some_mem e he
    · generalize Group.step i g = g' at hs
      cases hs with
      | ret hp =>
        intro he u hu hud
        cases hg : g.err with
        | some e' => simp [hg] at he
        | none =>
          simp only [hg] at he
          rcases List.mem_or_eq_of_mem_set hu with hu' | rfl
          · exact h.none_done hg u hu' hud
          · exact he
      | lock p hp hw =>
        intro he u hu hud
        rcases List.mem_or_eq_of_mem_set hu with hu' | rfl
        · exact h.none_done he u hu' hud
        · simp [hd] at hud
      | unlock p hp =>
        intro he u hu hud
        rcases List.mem_or_eq_of_mem_set hu with hu' | rfl
        · exact h.none_done he u hu' hud
        · simp [hd] at hud
      | load p hp =>
        intro he u hu hud
        rcases List.mem_or_eq_of_mem_set hu with hu' | rfl
        · exact h.none_done he u hu' hud
        · simp [hd] at hud
      | store x p hp =>
        intro he u hu hud
        rcases List.mem_or_eq_of_mem_set hu with hu' | rfl
        · exact h.none_done he u hu' hud
        · simp [hd] at hud

/-- What `g.Wait()` returns: an error returned by one of the goroutines, and
`nil` exactly when every goroutine returned `nil`. -/
theorem exec_err (g : Group α) (hwf : WF g) (herr : g.err = none)
    (hnd : ∀ t ∈ g.threads, t.done = false) (sched : List Nat) :
    (∀ e, (exec sched g).err = some e → ∃ t ∈ g.threads, t.ret = some e) ∧
    ((exec sched g).err = none ↔ ∀ t ∈ g.threads, t.ret = none) := by
  have h0 : ErrInv g :=
    ⟨fun e he => by simp [herr] at he, fun _ t ht hd => by simp [hnd t ht] at hd⟩
  have h1 : ErrInv (exec sched g) := exec_induction ErrInv (fun i _ hg => hg.step_errInv i) sched g h0
  have hdone := hwf.exec_allDone sched
  have hrets := exec_rets sched g
  have hsome : ∀ e, (exec sched g).err = some e → ∃ t ∈ g.threads, t.ret = some e := by
    intro e he
    have := h1.some_mem e he
    rw [hrets] at this
    obtain ⟨t, ht, hte⟩ := List.mem_map.1 this
    exact ⟨t, ht, hte⟩
  refine ⟨hsome, fun he t ht => ?_, fun hall => ?_⟩
  · have hm : t.ret ∈ (exec sched g).threads.map (fun t => t.ret) := by
      rw [hrets]; exact List.mem_map_of_mem _ ht
    obtain ⟨u, hu, hur⟩ := List.mem_map.1 hm
    rw [allDone, List.all_eq_true] at hdone
    rw [← hur]
    exact h1.none_done he u hu (hdone u hu)
  · cases he : (exec sched g).err with
    | none => rfl
    | some e =>
      obtain ⟨t, ht, hte⟩ := hsome e he
      rw [hall t ht] at hte
      exact absurd hte (by simp)

theorem stores_flatMap_lockedAppend (xs : List α) :
    stores (xs.flatMap lockedAppend) = xs := by
  induction xs with
  | nil => rfl
  | cons x xs ih =>
    rw [List.flatMap_cons]
    simp only [lockedAppend, List.cons_append, List.nil_append, stores]
    exact congrArg (List.cons x) ih

theorem Phase.congr {g g' : Group α} {j : Nat} {u u' : Goroutine α} (h : Phase g j u)
    (hw : g'.writer = g.writer) (hv : g'.var = g.var) (hp' : u'.prog = u.prog)
    (hr' : u'.reg = u.reg) : Phase g' j u' := by
  cases h with
  | idle xs hp hw' => exact Phase.idle xs (hp'.trans hp) (by rw [hw]; exact hw')
  | locked x xs hp hw' => exact Phase.locked x xs (hp'.trans hp) (by rw [hw]; exact hw')
  | loaded x xs hp hw' hr =>
    exact Phase.loaded x xs (hp'.trans hp) (by rw [hw]; exact hw') (by rw [hv, hr']; exact hr)
  | stored xs hp hw' => exact Phase.stored xs (hp'.trans hp) (by rw [hw]; exact hw')

theorem flatMap_lockedAppend_cons (x : α) (xs : List α) :
    (x :: xs).flatMap lockedAppend =
      Instr.lock :: Instr.load :: Instr.store x :: Instr.unlock :: xs.flatMap lockedAppend := by
  rw [List.flatMap_cons]; rfl

theorem Phase.of_lock {g : Group α} {i : Nat} {t : Goroutine α} (h : Phase g i t)
    (p : List (Instr α)) (hp : t.prog = Instr.lock :: p) :
    ∃ (x : α) (xs : List α),
      p = Instr.load :: Instr.store x :: Instr.unlock :: xs.flatMap lockedAppend := by
  cases h with
  | idle xs hp' hw =>
    cases xs with
    | nil => rw [hp] at hp'; exact absurd hp' (by simp)
    | cons x xs =>
      rw [hp, flatMap_lockedAppend_cons] at hp'
      exact ⟨x, xs, (List.cons.inj hp').2⟩
  | locked x xs hp' hw => rw [hp] at hp'; exact absurd hp' (by simp)
  | loaded x xs hp' hw hr => rw [hp] at hp'; exact absurd hp' (by simp)
  | stored xs hp' hw => rw [hp] at hp'; exact absurd hp' (by simp)

theorem Phase.of_unlock {g : Group α} {i : Nat} {t : Goroutine α} (h : Phase g i t)
    (p : List (Instr α)) (hp : t.prog = Instr.unlock :: p) :
    g.writer = some i ∧ ∃ xs : List α, p = xs.flatMap lockedAppend := by
  cases h with
  | idle xs hp' hw =>
    cases xs with
    | nil => rw [hp] at hp'; exact absurd hp' (by simp)
    | cons x xs =>
      rw [hp, flatMap_lockedAppend_cons] at hp'
      exact absurd hp' (by simp)
  | locked x xs hp' hw => rw [hp] at hp'; exact absurd hp' (by simp)
  | loaded x xs hp' hw hr => rw [hp] at hp'; exact absurd hp' (by simp)
  | stored xs hp' hw =>
    rw [hp] at hp'
    exact ⟨hw, xs, (List.cons.inj hp').2⟩

theorem Phase.of_load {g : Group α} {i : Nat} {t : Goroutine α} (h : Phase g i t)
    (p : List (Instr α)) (hp : t.prog = Instr.load :: p) :
    g.writer = some i ∧
      ∃ (x : α) (xs : List α), p = Instr.store x :: Instr.unlock :: xs.flatMap lockedAppend := by
  cases h with
  | idle xs hp' hw =>
    cases xs with
    | nil => rw [hp] at hp'; exact absurd hp' (by simp)
    | cons x xs =>
      rw [hp, flatMap_lockedAppend_cons] at hp'
      exact absurd hp' (by simp)
  | locked x xs hp' hw =>
    rw [hp] at hp'
    exact ⟨hw, x, xs, (List.cons.inj hp').2⟩
  | loaded x xs hp' hw hr => rw [hp] at hp'; exact absurd hp' (by simp)
  | stored xs hp' hw => rw [hp] at hp'; exact absurd hp' (by simp)

theorem Phase.of_store {g : Group α} {i : Nat} {t : Goroutine α} (h : Phase g i t)
    (x : α) (p : List (Instr α)) (hp : t.prog = Instr.store x :: p) :
    g.writer = some i ∧ t.reg = g.var ∧
      ∃ xs : List α, p = Instr.unlock :: xs.flatMap lockedAppend := by
  cases h with
  | idle xs hp' hw =>
    cases xs with
    | nil => rw [hp] at hp'; exact absurd hp' (by simp)
    | cons x xs =>
      rw [hp, flatMap_lockedAppend_cons] at hp'
      exact absurd hp' (by simp)
  | locked x xs hp' hw => rw [hp] at hp'; exact absurd hp' (by simp)
  | loaded y xs hp' hw hr =>
    rw [hp] at hp'
    exact ⟨hw, hr, xs, (List.cons.inj hp').2⟩
  | stored xs hp' hw => rw [hp] at hp'; exact absurd hp' (by simp)

/-- A goroutine other than `i` keeps its phase when the lock passes from free
to `i` or from `i` to free. -/
theorem Phase.other {g g' : Group α} {i j : Nat} {u : Goroutine α} (h : Phase g j u)
    (hij : i ≠ j) (hg : g.writer = none ∨ g.writer = some i)
    (hg' : g'.writer = none ∨ g'.writer = some i) : Phase g' j u := by
  have hne : g.writer ≠ some j := by
    rcases hg with hg | hg <;> rw [hg]
    · simp
    · exact fun hh => hij (Option.some.inj hh)
  have hne' : g'.writer ≠ some j := by
    rcases hg' with hg' | hg' <;> rw [hg']
    · simp
    · exact fun hh => hij (Option.some.inj hh)
  cases h with
  | idle xs hp hw' => exact Phase.idle xs hp hne'
  | locked x xs hp hw' => exact absurd hw' hne
  | loaded x xs hp hw' hr => exact absurd hw' hne
  | stored xs hp hw' => exact absurd hw' hne

theorem Phase.writer_of_not_idle {g : Group α} {j : Nat} {u : Goroutine α} (h : Phase g j u) :
    g.writer = some j ∨ (g.writer ≠ some j ∧ ∃ xs : List α, u.prog = xs.flatMap lockedAppend) := by
  cases h with
  | idle xs hp hw' => exact Or.inr ⟨hw', xs, hp⟩
  | locked x xs hp hw' => exact Or.inl hw'
  | loaded x xs hp hw' hr => exact Or.inl hw'
  | stored xs hp hw' => exact Or.inl hw'

theorem pending_set_same (g : Group α) (i : Nat) (t t' : Goroutine α)
    (ht : g.threads[i]? = some t) (hs : stores t'.prog = stores t.prog)
    (l : List (Goroutine α)) (hl : l = g.threads.set i t') :
    l.flatMap (fun t => stores t.prog) = g.pending := by
  obtain ⟨l1, l2, h1, _, h3⟩ := getElem?_split _ _ _ ht
  rw [hl, h3 t', pending, h1]
  simp [List.flatMap_append, List.flatMap_cons, hs]

theorem pending_set_store (g : Group α) (i : Nat) (t t' : Goroutine α) (x : α)
    (ht : g.threads[i]? = some t) (hs : stores t.prog = x :: stores t'.prog)
    (l : List (Goroutine α)) (hl : l = g.threads.set i t') :
    g.pending.Perm (x :: l.flatMap (fun t => stores t.prog)) := by
  obtain ⟨l1, l2, h1, _, h3⟩ := getElem?_split _ _ _ ht
  rw [hl, h3 t', pending, h1]
  simp only [List.flatMap_append, List.flatMap_cons, hs, List.cons_append]
  exact List.perm_middle

theorem Lin.step_lin {init total : List α} {g : Group α} (h : Lin init total g) (i : Nat) :
    Lin init total (step i g) := by
  rcases step_cases i g with hs | ⟨t, ht, hd, hs⟩
  · rw [hs]; exact h
  · have hph := h.phase i t ht
    obtain ⟨w, hv, hperm⟩ := h.perm
    generalize Group.step i g = g' at hs
    cases hs with
    | ret hp =>
      refine ⟨fun j u hu => ?_, w, hv, ?_⟩
      · rcases getElem?_set_cases _ _ _ _ _ hu with ⟨rfl, rfl⟩ | ⟨_, hu'⟩
        · exact hph.congr rfl rfl rfl rfl
        · exact (h.phase j u hu').congr rfl rfl rfl rfl
      · have := pending_set_same g i t { t with done := true } ht rfl _ rfl
        simp only [pending] at this ⊢
        rw [this]; exact hperm
    | lock p hp hw =>
      obtain ⟨x, xs, hpx⟩ := hph.of_lock p hp
      refine ⟨fun j u hu => ?_, w, hv, ?_⟩
      · rcases getElem?_set_cases _ _ _ _ _ hu with ⟨rfl, rfl⟩ | ⟨hij, hu'⟩
        · exact Phase.locked x xs hpx rfl
        · exact (h.phase j u hu').other hij (Or.inl hw) (Or.inr rfl)
      · have := pending_set_same g i t { t with prog := p } ht
          (by simp [hp, stores]) _ rfl
        simp only [pending] at this ⊢
        rw [this]; exact hperm
    | unlock p hp =>
      obtain ⟨hwi, xs, hpx⟩ := hph.of_unlock p hp
      refine ⟨fun j u hu => ?_, w, hv, ?_⟩
      · rcases getElem?_set_cases _ _ _ _ _ hu with ⟨rfl, rfl⟩ | ⟨hij, hu'⟩
        · exact Phase.idle xs hpx (by simp)
        · exact (h.phase j u hu').other hij (Or.inr hwi) (Or.inl rfl)
      · have := pending_set_same g i t { t with prog := p } ht
          (by simp [hp, stores]) _ rfl
        simp only [pending] at this ⊢
        rw [this]; exact hperm
    | load p hp =>
      obtain ⟨hwi, x, xs, hpx⟩ := hph.of_load p hp
      refine ⟨fun j u hu => ?_, w, hv, ?_⟩
      · rcases getElem?_set_cases _ _ _ _ _ hu with ⟨rfl, rfl⟩ | ⟨hij, hu'⟩
        · exact Phase.loaded x xs hpx hwi rfl
        · exact (h.phase j u hu').congr rfl rfl rfl rfl
      · have := pending_set_same g i t { t with prog := p, reg := g.var } ht
          (by simp [hp, stores]) _ rfl
        simp only [pending] at this ⊢
        rw [this]; exact hperm
    | store x p hp =>
      obtain ⟨hwi, hr, xs, hpx⟩ := hph.of_store x p hp
      refine ⟨fun j u hu => ?_, w ++ [x], ?_, ?_⟩
      · rcases getElem?_set_cases _ _ _ _ _ hu with ⟨rfl, rfl⟩ | ⟨hij, hu'⟩
        · exact Phase.stored xs hpx hwi
        · exact (h.phase j u hu').other hij (Or.inr hwi) (Or.inr hwi)
      · show t.reg ++ [x] = init ++ (w ++ [x])
        rw [hr, hv, List.append_assoc]
      · have := pending_set_store g i t { t with prog := p } x ht
          (by simp [hp, stores]) _ rfl
        simp only [pending] at this ⊢
        refine List.Perm.trans ?_ hperm
        rw [List.append_assoc]
        exact (List.Perm.append_left w this).symm

/-- Locked appends are linearizable: once every goroutine has returned the lock
is free and the shared slice is the initial one followed by the elements the
goroutines had to append, each exactly once, in some order. -/
theorem Lin.final {init total : List α} {g : Group α} (h : Lin init total g) (hwf : WF g)
    (hdone : g.allDone = true) :
    g.writer = none ∧ ∃ w, g.var = init ++ w ∧ w.Perm total := by
  rw [allDone, List.all_eq_true] at hdone
  have hprog : ∀ t ∈ g.threads, t.prog = [] := by
    intro t ht
    obtain ⟨i, hi⟩ := List.mem_iff_getElem?.1 ht
    exact (hwf.shape i t hi).2 (hdone t ht)
  constructor
  · cases hw : g.writer with
    | none => rfl
    | some k =>
      exfalso
      have hk := hwf.holder k hw
      have hu : g.threads[k]? = some g.threads[k] := List.getElem?_eq_getElem hk
      have hp := hprog _ (List.mem_iff_getElem?.2 ⟨k, hu⟩)
      have hb := (hwf.shape k _ hu).1
      simp [hw, hp, bal] at hb
  · obtain ⟨w, hv, hperm⟩ := h.perm
    refine ⟨w, hv, ?_⟩
    have hpend : g.pending = [] := by
      unfold pending
      rw [List.flatMap_eq_nil_iff]
      intro t ht
      rw [hprog t ht]; rfl
    rw [hpend, List.append_nil] at hperm
    exact hperm

theorem bal_flatMap_lockedAppend (xs : List α) :
    bal false (xs.flatMap lockedAppend) = true := by
  induction xs with
  | nil => rfl
  | cons x xs ih =>
    rw [flatMap_lockedAppend_cons]
    simpa [bal] using ih

theorem WF.of_start (g : Group α) (hw : g.writer = none)
    (hb : ∀ t ∈ g.threads, bal false t.prog = true ∧ t.done = false) : WF g := by
  refine ⟨fun i hi => by simp [hw] at hi, fun i t ht => ?_⟩
  have := hb t (List.mem_iff_getElem?.2 ⟨i, ht⟩)
  refine ⟨by simpa [hw] using this.1, fun hd => ?_⟩
  rw [this.2] at hd
  exact absurd hd (by simp)

theorem Lin.of_start_locked (g : Group α) (hw : g.writer = none)
    (hp : ∀ t ∈ g.threads, ∃ xs : List α, t.prog = xs.flatMap lockedAppend) :
    Lin g.var g.pending g := by
  refine ⟨fun i t ht => ?_, [], by simp, by simp⟩
  obtain ⟨xs, hxs⟩ := hp t (List.mem_iff_getElem?.2 ⟨i, ht⟩)
  exact Phase.idle xs hxs (by simp [hw])

/-- Goroutines that only make locked appends, started on a free lock: every
execution ends with all of them returned, the lock free, and the shared slice
extended by the elements they had to append, in some order. -/
theorem exec_lockedAppend (g : Group α) (hw : g.writer = none)
    (hp : ∀ t ∈ g.threads, (∃ xs : List α, t.prog = xs.flatMap lockedAppend) ∧ t.done = false)
    (sched : List Nat) :
    (exec sched g).allDone = true ∧ (exec sched g).writer = none ∧
      ∃ w, (exec sched g).var = g.var ++ w ∧ w.Perm g.pending := by
  have hwf : WF g := WF.of_start g hw (fun t ht => by
    obtain ⟨⟨xs, hxs⟩, hd⟩ := hp t ht
    exact ⟨by rw [hxs]; exact bal_flatMap_lockedAppend xs, hd⟩)
  have hlin : Lin g.var g.pending g := Lin.of_start_locked g hw (fun t ht => (hp t ht).1)
  have hlin' : Lin g.var g.pending (exec sched g) :=
    exec_induction (Lin g.var g.pending) (fun i _ hg => hg.step_lin i) sched g hlin
  have hdone := hwf.exec_allDone sched
  exact ⟨hdone, hlin'.final (hwf.exec sched) hdone⟩

end Group

/-! ### `Linter.addError` under concurrent calls -/

theorem addError_foldl {ρ : Type} (linter : Linter ρ) (w : List (Error ρ)) :
    w.foldl Linter.addError linter = { linter with Errors := linter.Errors ++ w } := by
  induction w generalizing linter with
  | nil => simp
  | cons e w ih => simp [List.foldl_cons, ih, Linter.addError]

theorem addError.pending_eq {ρ : Type} (linter : Linter ρ) (errors : List (Error ρ)) :
    (addError.group linter errors).pending = errors := by
  unfold Group.pending addError.group
  induction errors with
  | nil => rfl
  | cons e errors ih =>
    simp only [List.map_cons, List.flatMap_cons, addError.goroutine, addError.prog,
      Group.stores] at ih ⊢
    simpa using ih

/-- C8: `addError` is safe under concurrent calls.  For every finite list of
records, each passed to `addError` by its own goroutine, and every
interleaving of the steps of these calls (`Lock`, read of `linter.Errors`,
assignment of the appended slice, `Unlock`), all calls return, the lock ends
free, and the final `linter.Errors` is the previous content followed by the
records, each exactly once, in some order: the linter is the one obtained by
running the calls one after the other in that order.  `getErrors` called
afterwards returns that full sequence. -/
theorem C8_addError_concurrent {ρ : Type} (linter : Linter ρ) (errors : List (Error ρ))
    (sched : List Nat) :
    (Group.exec sched (addError.group linter errors)).allDone = true ∧
    (Group.exec sched (addError.group linter errors)).writer = none ∧
    ∃ w : List (Error ρ), w.Perm errors ∧
      (Group.exec sched (addError.group linter errors)).var = linter.Errors ++ w ∧
      ({ linter with Errors := (Group.exec sched (addError.group linter errors)).var } :
          Linter ρ) = w.foldl Linter.addError linter ∧
      Linter.getErrors
        { linter with Errors := (Group.exec sched (addError.group linter errors)).var } =
        linter.Errors ++ w := by
  have h := Group.exec_lockedAppend (addError.group linter errors) rfl
    (fun t ht => by
      obtain ⟨e, _, rfl⟩ := List.mem_map.1 ht
      exact ⟨⟨[e], by simp [addError.goroutine, addError.prog, Group.lockedAppend]⟩, rfl⟩)
    sched
  obtain ⟨h1, h2, w, h3, h4⟩ := h
  rw [addError.pending_eq] at h4
  refine ⟨h1, h2, w, h4, h3, ?_, ?_⟩
  · rw [addError_foldl, h3]; rfl
  · rw [h3]; rfl

/-! ### `Linter.validateFile` -/

namespace Group

variable {α : Type}

/-- Goroutines that append nothing leave the shared slice as it is. -/
theorem exec_var_of_no_stores (g : Group α) (h : ∀ t ∈ g.threads, stores t.prog = [])
    (sched : List Nat) : (exec sched g).var = g.var := by
  have key := exec_induction
    (fun g' => g'.var = g.var ∧ ∀ t ∈ g'.threads, stores t.prog = [])
    (fun i g' hg' => by
      obtain ⟨hv, hs⟩ := hg'
      rcases step_cases i g' with hst | ⟨t, ht, _, hst⟩
      · rw [hst]; exact ⟨hv, hs⟩
      · have hmem : t ∈ g'.threads := List.mem_iff_getElem?.2 ⟨i, ht⟩
        have hts := hs t hmem
        generalize Group.step i g' = g'' at hst
        cases hst with
        | ret hp =>
          refine ⟨hv, fun u hu => ?_⟩
          rcases List.mem_or_eq_of_mem_set hu with hu' | rfl
          · exact hs u hu'
          · exact hts
        | lock p hp hw =>
          refine ⟨hv, fun u hu => ?_⟩
          rcases List.mem_or_eq_of_mem_set hu with hu' | rfl
          · exact hs u hu'
          · simpa [hp, stores] using hts
        | unlock p hp =>
          refine ⟨hv, fun u hu => ?_⟩
          rcases List.mem_or_eq_of_mem_set hu with hu' | rfl
          · exact hs u hu'
          · simpa [hp, stores] using hts
        | load p hp =>
          refine ⟨hv, fun u hu => ?_⟩
          rcases List.mem_or_eq_of_mem_set hu with hu' | rfl
          · exact hs u hu'
          · simpa [hp, stores] using hts
        | store x p hp =>
          simp [hp, stores] at hts)
    sched g ⟨rfl, h⟩
  exact key.1

theorem run_append (s1 s2 : List Nat) (g : Group α) :
    run (s1 ++ s2) g = run s2 (run s1 g) := by
  simp [run, List.foldl_append]

theorem step_done (g : Group α) (i : Nat) (t : Goroutine α) (ht : g.threads[i]? = some t)
    (hd : t.done = true) : step i g = g := by
  unfold step; simp [ht, hd]

theorem step_ret (g : Group α) (i : Nat) (t : Goroutine α) (ht : g.threads[i]? = some t)
    (hd : t.done = false) (hp : t.prog = []) :
    step i g =
      { g with
        err := match g.err with
          | some e => some e
          | none => t.ret
        threads := g.threads.set i { t with done := true } } := by
  unfold step; simp [ht, hd, hp]

theorem step_load (g : Group α) (i : Nat) (t : Goroutine α) (p : List (Instr α))
    (ht : g.threads[i]? = some t) (hd : t.done = false) (hp : t.prog = Instr.load :: p) :
    step i g = { g with threads := g.threads.set i { t with prog := p, reg := g.var } } := by
  unfold step; simp [ht, hd, hp]

theorem step_store (g : Group α) (i : Nat) (t : Goroutine α) (x : α) (p : List (Instr α))
    (ht : g.threads[i]? = some t) (hd : t.done = false) (hp : t.prog = Instr.store x :: p) :
    step i g =
      { g with var := t.reg ++ [x], threads := g.threads.set i { t with prog := p } } := by
  unfold step; simp [ht, hd, hp]

/-- A goroutine that is run alone to its end appends what it has to append and
leaves the other goroutines as they are. -/
theorem run_alone (g : Group α) (i : Nat) (t : Goroutine α) (ht : g.threads[i]? = some t)
    (hd : t.done = false) (hp : t.prog = [] ∨ ∃ x, t.prog = [Instr.load, Instr.store x]) :
    (run [i, i, i] g).var = g.var ++ stores t.prog ∧
    (∀ j, j ≠ i → (run [i, i, i] g).threads[j]? = g.threads[j]?) ∧
    ∃ t', (run [i, i, i] g).threads[i]? = some t' ∧ t'.done = true := by
  have hlen : i < g.threads.length := (List.getElem?_eq_some.1 ht).1
  rcases hp with hp | ⟨x, hp⟩
  · have h1 := step_ret g i t ht hd hp
    have h2 : (step i g).threads[i]? = some { t with done := true } := by
      rw [h1]; exact List.getElem?_set_self hlen
    have h3 := step_done (step i g) i _ h2 rfl
    have hrun : run [i, i, i] g = step i g := by
      simp only [run, List.foldl_cons, List.foldl_nil]
      rw [h3, h3]
    rw [hrun]
    refine ⟨by rw [h1, hp]; simp [stores], fun j hj => ?_, _, h2, rfl⟩
    rw [h1]
    exact List.getElem?_set_ne (Ne.symm hj)
  · have h1 := step_load g i t _ ht hd hp
    have h2 : (step i g).threads[i]? =
        some { t with prog := [Instr.store x], reg := g.var } := by
      rw [h1]; exact List.getElem?_set_self hlen
    have h3 := step_store (step i g) i _ x [] h2 hd rfl
    have hlen2 : i < (step i g).threads.length := (List.getElem?_eq_some.1 h2).1
    have h4 : (step i (step i g)).threads[i]? =
        some { t with prog := [], reg := g.var } := by
      rw [h3]; exact List.getElem?_set_self hlen2
    have h5 := step_ret (step i (step i g)) i _ h4 hd rfl
    have hlen3 : i < (step i (step i g)).threads.length := (List.getElem?_eq_some.1 h4).1
    have hrun : run [i, i, i] g = step i (step i (step i g)) := by
      simp only [run, List.foldl_cons, List.foldl_nil]
    rw [hrun]
    refine ⟨?_, fun j hj => ?_, ?_⟩
    · rw [h5, h3, h1, hp]; simp [stores]
    · rw [h5]
      simp only
      rw [List.getElem?_set_ne (Ne.symm hj), h3]
      simp only
      rw [List.getElem?_set_ne (Ne.symm hj), h1]
      simp only
      rw [List.getElem?_set_ne (Ne.symm hj)]
    · rw [h5]
      exact ⟨_, List.getElem?_set_self hlen3, rfl⟩

theorem run_serial (order : List Nat) (g : Group α) (hnd : order.Nodup)
    (hs : ∀ i ∈ order, ∃ t, g.threads[i]? = some t ∧ t.done = false ∧
      (t.prog = [] ∨ ∃ x, t.prog = [Instr.load, Instr.store x])) :
    (run (serial order) g).var = g.var ++ order.flatMap (storesAt g) ∧
    (∀ j, j ∉ order → (run (serial order) g).threads[j]? = g.threads[j]?) ∧
    ∀ j ∈ order, ∃ t', (run (serial order) g).threads[j]? = some t' ∧ t'.done = true := by
  induction order generalizing g with
  | nil => simp [serial, run]
  | cons i order ih =>
    obtain ⟨t, ht, hd, hp⟩ := hs i (List.mem_cons_self _ _)
    obtain ⟨hv, hoth, hdone⟩ := run_alone g i t ht hd hp
    have hni : i ∉ order := (List.nodup_cons.1 hnd).1
    have hne : ∀ j ∈ order, j ≠ i := fun j hj hji => hni (hji ▸ hj)
    have hser : serial (i :: order) = [i, i, i] ++ serial order := by
      simp [serial, List.flatMap_cons]
    obtain ⟨ihv, ihoth, ihdone⟩ := ih (run [i, i, i] g) (List.nodup_cons.1 hnd).2
      (fun j hj => by rw [hoth j (hne j hj)]; exact hs j (List.mem_cons_of_mem _ hj))
    rw [hser, run_append]
    refine ⟨?_, fun j hj => ?_, fun j hj => ?_⟩
    · rw [ihv, hv, List.flatMap_cons, List.append_assoc]
      have hst : storesAt g i = stores t.prog := by simp [storesAt, ht]
      rw [hst]
      congr 2
      exact List.flatMap_congr (fun j hj => by simp [storesAt, hoth j (hne j hj)])
    · have hj' : j ≠ i ∧ j ∉ order := by
        constructor
        · exact fun h => hj (h ▸ List.mem_cons_self _ _)
        · exact fun h => hj (List.mem_cons_of_mem _ h)
      rw [ihoth j hj'.2, hoth j hj'.1]
    · rcases List.mem_cons.1 hj with rfl | hj
      · rw [ihoth j hni]; exact hdone
      · exact ihdone j hj

theorem Wait_of_allDone (g : Group α) (h : g.allDone = true) : Wait g = g := by
  have hr : g.remaining = 0 := by
    unfold remaining
    rw [List.sum_eq_zero_iff]
    intro n hn
    obtain ⟨t, ht, rfl⟩ := List.mem_map.1 hn
    rw [allDone, List.all_eq_true] at h
    simp [Goroutine.remaining, h t ht]
  unfold Wait
  rw [hr]; rfl

/-- A serial execution in the order `order`, a permutation of the goroutines:
the shared slice ends with what the goroutines append, in that order. -/
theorem exec_serial (order : List Nat) (g : Group α)
    (hperm : order.Perm (List.range g.threads.length))
    (hs : ∀ t ∈ g.threads, t.done = false ∧
      (t.prog = [] ∨ ∃ x, t.prog = [Instr.load, Instr.store x])) :
    (exec (serial order) g).var = g.var ++ order.flatMap (storesAt g) := by
  have hnd : order.Nodup := (hperm.nodup_iff).2 (List.nodup_range _)
  have hmem : ∀ i, i ∈ order ↔ i < g.threads.length := fun i => by
    rw [hperm.mem_iff, List.mem_range]
  obtain ⟨hv, _, hdone⟩ := run_serial order g hnd (fun i hi => by
    have hlt := (hmem i).1 hi
    have hg : g.threads[i]? = some g.threads[i] := List.getElem?_eq_getElem hlt
    exact ⟨_, hg, hs _ (List.mem_iff_getElem?.2 ⟨i, hg⟩)⟩)
  have hlen : (run (serial order) g).threads.length = g.threads.length :=
    run_induction (fun g' => g'.threads.length = g.threads.length)
      (fun i g' h => (step_length i g').trans h) _ g rfl
  have hall : (run (serial order) g).allDone = true := by
    rw [allDone, List.all_eq_true]
    intro t ht
    obtain ⟨j, hj⟩ := List.mem_iff_getElem?.1 ht
    have hjlt : j < g.threads.length := by
      rw [← hlen]; exact (List.getElem?_eq_some.1 hj).1
    obtain ⟨t', ht', hd'⟩ := hdone j ((hmem j).2 hjlt)
    rw [hj] at ht'
    rw [Option.some.inj ht']; exact hd'
  unfold exec
  rw [Wait_of_allDone _ hall, hv]

end Group

theorem Capture.value_mem {β : Type} (xs : List β) (k : Nat) (own : β) (h : own ∈ xs) :
    Capture.value xs k own ∈ xs := by
  unfold Capture.value
  cases hk : xs[k]? with
  | none => simpa using h
  | some x => simpa using List.getElem?_mem hk

theorem Capture.reads_mem {β : Type} (capture : Capture) (xs : List β) (p : β × β)
    (h : p ∈ capture.reads xs) : p.1 ∈ xs ∧ p.2 ∈ xs := by
  unfold Capture.reads at h
  obtain ⟨q, hq, rfl⟩ := List.mem_map.1 h
  obtain ⟨i, x⟩ := q
  have hx : x ∈ xs := List.getElem?_mem (List.mk_mem_enum_iff_getElem?.1 hq)
  exact ⟨Capture.value_mem xs _ x hx, Capture.value_mem xs _ x hx⟩

theorem Capture.value_own {β : Type} (xs : List β) (i : Nat) (x : β)
    (h : (i, x) ∈ xs.enum) : Capture.value xs i x = x := by
  unfold Capture.value
  rw [List.mk_mem_enum_iff_getElem?.1 h]; rfl

theorem Capture.enum_map_own {β γ : Type} (xs : List β) (f : β → β → γ) :
    xs.enum.map (fun p =>
      f (Capture.value xs (Capture.own.first p.1) p.2)
        (Capture.value xs (Capture.own.second p.1) p.2)) = xs.map (fun x => f x x) := by
  have h1 : xs.enum.map (fun p =>
      f (Capture.value xs (Capture.own.first p.1) p.2)
        (Capture.value xs (Capture.own.second p.1) p.2)) =
      xs.enum.map (fun p => f p.2 p.2) :=
    List.map_congr_left (fun p hp => by
      obtain ⟨i, x⟩ := p
      simp only [Capture.own]
      rw [Capture.value_own xs i x hp])
  rw [h1]
  have h2 : xs.enum.map (fun p => f p.2 p.2) = (xs.enum.map Prod.snd).map (fun x => f x x) := by
    rw [List.map_map]; rfl
  rw [h2, List.enum_map_snd]

theorem Capture.reads_own {β : Type} (xs : List β) :
    Capture.own.reads xs = xs.map (fun x => (x, x)) :=
  Capture.enum_map_own xs (fun a b => (a, b))

/-! ### `Linter.validateFile` -/

theorem validateFile.goroutine_ret {ρ : Type} [Rule ρ] (cand : GoString) (a b : ρ) :
    (validateFile.goroutine cand a b).ret = (Rule.Validate a cand).2 := by
  unfold validateFile.goroutine
  split <;> simp_all

theorem validateFile.goroutine_done {ρ : Type} [Rule ρ] (cand : GoString) (a b : ρ) :
    (validateFile.goroutine cand a b).done = false := by
  unfold validateFile.goroutine
  split <;> rfl

theorem validateFile.goroutine_bal {ρ : Type} [Rule ρ] (cand : GoString) (a b : ρ) :
    Group.bal false (validateFile.goroutine cand a b).prog = true := by
  unfold validateFile.goroutine
  split <;> rfl

theorem validateFile.goroutine_stores {ρ : Type} [Rule ρ] (cand : GoString) (a b : ρ) :
    Group.stores (validateFile.goroutine cand a b).prog =
      if Rule.Validate a cand = (false, none) then [b] else [] := by
  unfold validateFile.goroutine
  split <;> simp_all [Group.stores]

theorem validateFile.goroutine_simple {ρ : Type} [Rule ρ] (cand : GoString) (a b : ρ) :
    (validateFile.goroutine cand a b).prog = [] ∨
      ∃ x, (validateFile.goroutine cand a b).prog = [Instr.load, Instr.store x] := by
  unfold validateFile.goroutine
  split
  · exact Or.inl rfl
  · exact Or.inl rfl
  · exact Or.inr ⟨b, rfl⟩

theorem validateFile.group_WF {ρ : Type} [Rule ρ] (rules : RuleBucket ρ) (path : GoString)
    (capture : Capture) : Group.WF (validateFile.group rules path capture) := by
  refine Group.WF.of_start _ rfl (fun t ht => ?_)
  obtain ⟨p, _, rfl⟩ := List.mem_map.1 ht
  exact ⟨validateFile.goroutine_bal _ _ _, validateFile.goroutine_done _ _ _⟩

/-- Every rule `Validate` is called on is stored under the extension of the
file, and there is one call per rule stored. -/
theorem validateFile.evaluated_mem {ρ : Type} (rules : RuleBucket ρ) (path : GoString)
    (capture : Capture) :
    (∀ rule ∈ validateFile.evaluated rules path capture, rule ∈ rules.get (Ext path)) ∧
    (validateFile.evaluated rules path capture).length = (rules.get (Ext path)).length := by
  constructor
  · intro rule hr
    obtain ⟨p, hp, rfl⟩ := List.mem_map.1 hr
    exact (Capture.reads_mem capture _ p hp).1
  · simp [validateFile.evaluated, Capture.reads, List.enum_length]

/-- When every goroutine finds its own rule in `rule`, `Validate` is called on
the rules stored under the extension of the file, each once, in their order. -/
theorem validateFile.evaluated_own {ρ : Type} (rules : RuleBucket ρ) (path : GoString) :
    validateFile.evaluated rules path Capture.own = rules.get (Ext path) := by
  unfold validateFile.evaluated
  rw [Capture.reads_own, List.map_map]
  exact List.map_id _

theorem validateFile.group_own {ρ : Type} [Rule ρ] (rules : RuleBucket ρ) (path : GoString) :
    (validateFile.group rules path Capture.own).threads =
      (rules.get (Ext path)).map (fun r => validateFile.goroutine (withoutExt path) r r) := by
  unfold validateFile.group
  simp only
  rw [Capture.reads_own, List.map_map]
  rfl

/-- What `g.Wait()` returns in `validateFile`: an error returned by one of the
calls of `Validate`, and `nil` exactly when no call returned an error. -/
theorem validateFile.wait_err {ρ : Type} [Rule ρ] (rules : RuleBucket ρ) (path : GoString)
    (capture : Capture) (sched : List Nat) :
    (∀ e, (Group.exec sched (validateFile.group rules path capture)).err = some e →
      ∃ rule ∈ validateFile.evaluated rules path capture,
        (Rule.Validate rule (withoutExt path)).2 = some e) ∧
    ((Group.exec sched (validateFile.group rules path capture)).err = none ↔
      ∀ rule ∈ validateFile.evaluated rules path capture,
        (Rule.Validate rule (withoutExt path)).2 = none) := by
  have h := Group.exec_err (validateFile.group rules path capture)
    (validateFile.group_WF rules path capture)
    rfl (fun t ht => by
      obtain ⟨p, _, rfl⟩ := List.mem_map.1 ht
      exact validateFile.goroutine_done _ _ _) sched
  refine ⟨fun e he => ?_, ?_⟩
  · obtain ⟨t, ht, hte⟩ := h.1 e he
    obtain ⟨p, hp, rfl⟩ := List.mem_map.1 ht
    exact ⟨p.1, List.mem_map_of_mem Prod.fst hp, by
      rw [← validateFile.goroutine_ret _ p.1 p.2]; exact hte⟩
  · rw [h.2]
    constructor
    · intro hall r hr
      obtain ⟨p, hp, rfl⟩ := List.mem_map.1 hr
      rw [← validateFile.goroutine_ret _ p.1 p.2]
      exact hall _ (List.mem_map_of_mem _ hp)
    · intro hall t ht
      obtain ⟨p, hp, rfl⟩ := List.mem_map.1 ht
      rw [validateFile.goroutine_ret]
      exact hall p.1 (List.mem_map_of_mem Prod.fst hp)

/-- When every rule of `rules[ext]` accepts the name, `validateFile` returns
`nil` and calls `addError` for no record, whatever the goroutines find in
`rule`. -/
theorem validateFile.core_all_pass {ρ ι : Type} [Rule ρ] (config : Config ρ ι) (index : ι)
    (path : GoString) (capture : Capture) (sched : List Nat)
    (h : ∀ rule ∈ (config.getConfig index path).get (Ext path),
      Rule.Validate rule (withoutExt path) = (true, none)) :
    validateFile.core config index path capture sched = (none, none) := by
  unfold validateFile.core validateFile.result
  have hev := (validateFile.evaluated_mem (config.getConfig index path) path capture).1
  have herr := ((validateFile.wait_err (config.getConfig index path) path capture sched).2).2
    (fun r hr => by rw [h r (hev r hr)])
  have hvar := Group.exec_var_of_no_stores
    (validateFile.group (config.getConfig index path) path capture)
    (fun t ht => by
      obtain ⟨p, hp, rfl⟩ := List.mem_map.1 ht
      rw [validateFile.goroutine_stores, h p.1 (Capture.reads_mem capture _ p hp).1]
      simp) sched
  rw [herr]
  have hv : (Group.exec sched
      (validateFile.group (config.getConfig index path) path capture)).var = [] := hvar
  simp [hv]

theorem RuleBucket.get_of_not_key {ρ : Type} (rules : RuleBucket ρ) (ext : GoString)
    (h : ext ∉ rules.map Prod.fst) : rules.get ext = [] := by
  unfold RuleBucket.get
  have : rules.lookup ext = none := by
    rw [List.lookup_eq_none_iff]
    intro p hp
    have hne : ext ≠ p.1 := fun he => h (he ▸ List.mem_map_of_mem Prod.fst hp)
    simpa using hne
  rw [this]; rfl

theorem RuleBucket.get_eq_find {ρ : Type} (rules : RuleBucket ρ) (ext : GoString) :
    rules.get ext =
      match rules.find? (fun p => decide (p.1 = ext)) with
      | some p => p.2
      | none => [] := by
  unfold RuleBucket.get
  induction rules with
  | nil => rfl
  | cons p rules ih =>
    obtain ⟨k, rs⟩ := p
    by_cases hk : k = ext
    · subst hk; simp [List.lookup, List.find?]
    · have hk' : ¬ ext = k := fun h => hk h.symm
      have hb : (ext == k) = false := by simpa using hk'
      simp only [List.lookup, hb, List.find?, hk, decide_False]
      exact ih

theorem validateFile.storesAt_flatMap {ρ : Type} [Rule ρ] (rules : RuleBucket ρ)
    (path : GoString) (order : List Nat) :
    order.flatMap (Group.storesAt (validateFile.group rules path Capture.own)) =
      validateFile.failing (withoutExt path)
        (order.filterMap (fun i => (rules.get (Ext path))[i]?)) := by
  induction order with
  | nil => rfl
  | cons i order ih =>
    rw [List.flatMap_cons, ih]
    have hg : (validateFile.group rules path Capture.own).threads[i]? =
        ((rules.get (Ext path))[i]?).map
          (fun r => validateFile.goroutine (withoutExt path) r r) := by
      rw [validateFile.group_own, List.getElem?_map]
    cases hr : (rules.get (Ext path))[i]? with
    | none =>
      rw [hr] at hg
      simp [Group.storesAt, hg, List.filterMap_cons, hr]
    | some r =>
      rw [hr] at hg
      simp only [Group.storesAt, hg, Option.map_some', List.filterMap_cons, hr,
        validateFile.goroutine_stores, validateFile.failing]
      by_cases hv : Rule.Validate r (withoutExt path) = (false, none)
      · simp [hv, List.filter_cons]
      · simp [hv, List.filter_cons]

/-- The record `validateFile` appends when every goroutine finds its own rule
in `rule`, the evaluations run one after the other in the order `order`, a
permutation of the positions of `rules[ext]`, and no rule returns an error. -/
theorem validateFile.core_serial {ρ ι : Type} [Rule ρ] (config : Config ρ ι) (index : ι)
    (path : GoString) (order : List Nat)
    (hperm : order.Perm (List.range ((config.getConfig index path).get (Ext path)).length))
    (hok : ∀ rule ∈ (config.getConfig index path).get (Ext path),
      (Rule.Validate rule (withoutExt path)).2 = none) :
    validateFile.core config index path Capture.own (Group.serial order) =
      (none,
        match validateFile.failing (withoutExt path)
            (order.filterMap (fun i => ((config.getConfig index path).get (Ext path))[i]?)) with
        | [] => none
        | r :: rs => some { Path := path, Rules := r :: rs }) := by
  unfold validateFile.core validateFile.result
  have herr := ((validateFile.wait_err (config.getConfig index path) path Capture.own
    (Group.serial order)).2).2 (fun r hr => by
      rw [validateFile.evaluated_own] at hr
      exact hok r hr)
  have hlen : (validateFile.group (config.getConfig index path) path Capture.own).threads.length
      = ((config.getConfig index path).get (Ext path)).length := by
    rw [validateFile.group_own, List.length_map]
  have hvar := Group.exec_serial order
    (validateFile.group (config.getConfig index path) path Capture.own)
    (by rw [hlen]; exact hperm)
    (fun t ht => by
      obtain ⟨p, _, rfl⟩ := List.mem_map.1 ht
      exact ⟨validateFile.goroutine_done _ _ _, validateFile.goroutine_simple _ _ _⟩)
  rw [validateFile.storesAt_flatMap] at hvar
  have hvar' : (Group.exec (Group.serial order)
      (validateFile.group (config.getConfig index path) path Capture.own)).var =
      validateFile.failing (withoutExt path)
        (order.filterMap (fun i => ((config.getConfig index path).get (Ext path))[i]?)) := by
    rw [hvar]; rfl
  rw [herr, hvar']
  cases validateFile.failing (withoutExt path)
      (order.filterMap (fun i => ((config.getConfig index path).get (Ext path))[i]?)) with
  | nil => simp
  | cons r rs => simp

theorem validateFile.core_path {ρ ι : Type} [Rule ρ] (config : Config ρ ι) (index : ι)
    (path : GoString) (capture : Capture) (sched : List Nat) (error : Error ρ)
    (h : (validateFile.core config index path capture sched).2 = some error) :
    error.Path = path := by
  unfold validateFile.core validateFile.result at h
  generalize Group.exec sched
    (validateFile.group (config.getConfig index path) path capture) = g at h
  cases hg : g.err with
  | some err => simp [hg] at h
  | none =>
    simp only [hg] at h
    by_cases hl : 0 < g.var.length
    · simp only [hl, if_true, Option.some.injEq] at h
      rw [← h]
    · simp [hl] at h

theorem validateFile.core_rules {ρ ι : Type} [Rule ρ] (config : Config ρ ι) (index : ι)
    (path : GoString) (capture : Capture) (sched : List Nat) (error : Error ρ)
    (h : (validateFile.core config index path capture sched).2 = some error) :
    error.Rules ≠ [] := by
  unfold validateFile.core validateFile.result at h
  generalize Group.exec sched
    (validateFile.group (config.getConfig index path) path capture) = g at h
  cases hg : g.err with
  | some err => simp [hg] at h
  | none =>
    simp only [hg] at h
    by_cases hl : 0 < g.var.length
    · simp only [hl, if_true, Option.some.injEq] at h
      rw [← h]
      intro h0
      have h1 : g.var = [] := h0
      simp [h1] at hl
    · simp [hl] at h

/-- When a call of `Validate` returns an error, `validateFile` returns the
error of such a call and calls `addError` for no record, whatever the
goroutines find in `rule` and however they interleave. -/
theorem validateFile.error_of_call_returned {ρ ι : Type} [Rule ρ] (linter : Linter ρ)
    (config : Config ρ ι) (index : ι) (entrypoint path : GoString) (capture : Capture)
    (sched : List Nat)
    (h : ∃ rule ∈ validateFile.evaluated (config.getConfig index path) path capture,
      (Rule.Validate rule (withoutExt path)).2 ≠ none) :
    ∃ rule ∈ validateFile.evaluated (config.getConfig index path) path capture, ∃ err,
      (Rule.Validate rule (withoutExt path)).2 = some err ∧
      linter.validateFile config index entrypoint path capture sched = (some err, linter) := by
  have hex := validateFile.wait_err (config.getConfig index path) path capture sched
  cases hg : (Group.exec sched
      (validateFile.group (config.getConfig index path) path capture)).err with
  | none =>
    obtain ⟨r, hr, hne⟩ := h
    exact absurd (hex.2.1 hg r hr) hne
  | some err =>
    obtain ⟨r, hr, hre⟩ := hex.1 err hg
    refine ⟨r, hr, err, hre, ?_⟩
    unfold Linter.validateFile validateFile.core validateFile.result
    rw [hg]

/-- When every goroutine finds its own rule in `rule` and a rule stored under
the extension of the file returns an error, `validateFile` returns the error
of such a rule and calls `addError` for no record. -/
theorem validateFile.error_returned_own {ρ ι : Type} [Rule ρ] (linter : Linter ρ)
    (config : Config ρ ι) (index : ι) (entrypoint path : GoString) (sched : List Nat)
    (h : ∃ rule ∈ (config.getConfig index path).get (Ext path),
      (Rule.Validate rule (withoutExt path)).2 ≠ none) :
    ∃ rule ∈ (config.getConfig index path).get (Ext path), ∃ err,
      (Rule.Validate rule (withoutExt path)).2 = some err ∧
      linter.validateFile config index entrypoint path Capture.own sched =
        (some err, linter) := by
  have := validateFile.error_of_call_returned linter config index entrypoint path
    Capture.own sched (by rw [validateFile.evaluated_own]; exact h)
  rw [validateFile.evaluated_own] at this
  exact this

/-- For a file whose extension is not a key of the bucket no goroutine is
started, `validateFile` returns `nil` and `linter.Errors` is unchanged. -/
theorem validateFile.nothing_when_not_key {ρ ι : Type} [Rule ρ] (linter : Linter ρ)
    (config : Config ρ ι) (index : ι) (entrypoint path : GoString) (capture : Capture)
    (sched : List Nat) (h : Ext path ∉ (config.getConfig index path).map Prod.fst) :
    (validateFile.group (config.getConfig index path) path capture).threads = [] ∧
    validateFile.evaluated (config.getConfig index path) path capture = [] ∧
    linter.validateFile config index entrypoint path capture sched = (none, linter) := by
  have hget := RuleBucket.get_of_not_key _ _ h
  refine ⟨by simp [validateFile.group, Capture.reads, hget],
    by simp [validateFile.evaluated, Capture.reads, hget], ?_⟩
  unfold Linter.validateFile
  rw [validateFile.core_all_pass config index path capture sched
    (fun r hr => by rw [hget] at hr; simp at hr)]

/-- C1, evaluated where the code departs from it: the name
`LOUD-AND-FAR-TOO-LONG-A-NAME` fails both rules stored under `.txt` and
neither returns an error, yet when the two goroutines, each evaluating its
own rule, both read `errRules` before either assigns its appended slice
(interleaving `0, 1, 0, 1`), the record `validateFile` appends holds
`maxLength20` only: the append of `lowercaseOnly` is lost. -/
theorem C1_append_lost_when_appends_overlap :
    (∀ rule ∈ txtRules.get (Ext "LOUD-AND-FAR-TOO-LONG-A-NAME.txt".toList),
      Rule.Validate rule (withoutExt "LOUD-AND-FAR-TOO-LONG-A-NAME.txt".toList) =
        (false, none)) ∧
    txtRules.get (Ext "LOUD-AND-FAR-TOO-LONG-A-NAME.txt".toList) =
      [DemoRule.lowercaseOnly, DemoRule.maxLength20] ∧
    emptyLinter.validateFile (demoConfig [] txtRules) () []
        "LOUD-AND-FAR-TOO-LONG-A-NAME.txt".toList Capture.own [0, 1, 0, 1] =
      (none, { Entrypoint := [], Errors :=
        [{ Path := "LOUD-AND-FAR-TOO-LONG-A-NAME.txt".toList,
           Rules := [DemoRule.maxLength20] }] }) := by
  decide

/-- C3, evaluated where the code departs from it: under `.txt` the bucket
stores `broken`, whose `Validate` returns an error, and `lowercaseOnly`.
With one variable `rule` for the loop and both goroutines running after the
loop has ended, both find `lowercaseOnly` in `rule`: `Validate` of `broken`
is never called, `validateFile` returns `nil` for `BAD.txt` and appends a
record. -/
theorem C3_error_lost_when_rule_is_captured :
    DemoRule.broken ∈
      RuleBucket.get [(".txt".toList, [DemoRule.broken, DemoRule.lowercaseOnly])]
        (Ext "BAD.txt".toList) ∧
    (Rule.Validate DemoRule.broken (withoutExt "BAD.txt".toList)).2 =
      some (GoError.msg "malformed pattern".toList) ∧
    (Capture.last 2).admissible 2 = true ∧
    validateFile.evaluated [(".txt".toList, [DemoRule.broken, DemoRule.lowercaseOnly])]
        "BAD.txt".toList (Capture.last 2) =
      [DemoRule.lowercaseOnly, DemoRule.lowercaseOnly] ∧
    emptyLinter.validateFile
        (demoConfig [] [(".txt".toList, [DemoRule.broken, DemoRule.lowercaseOnly])]) () []
        "BAD.txt".toList (Capture.last 2) [0, 0, 0, 1, 1, 1] =
      (none, { Entrypoint := [], Errors :=
        [{ Path := "BAD.txt".toList,
           Rules := [DemoRule.lowercaseOnly, DemoRule.lowercaseOnly] }] }) := by
  decide

/-- C6, evaluated where the code departs from it: under `.txt` the bucket
stores `lowercaseOnly` and `maxLength20`, and the file is `LOUD.txt`.  With
one variable `rule` for the loop and both goroutines running after the loop
has ended, `Validate` is called on `maxLength20` twice and on `lowercaseOnly`
not at all: the rules evaluated are not the rules stored under `.txt`, and
`validateFile` appends no record although `lowercaseOnly` rejects `LOUD`. -/
theorem C6_stored_rule_skipped_when_rule_is_captured :
    txtRules.get (Ext "LOUD.txt".toList) = [DemoRule.lowercaseOnly, DemoRule.maxLength20] ∧
    (Capture.last 2).admissible 2 = true ∧
    validateFile.evaluated txtRules "LOUD.txt".toList (Capture.last 2) =
      [DemoRule.maxLength20, DemoRule.maxLength20] ∧
    Rule.Validate DemoRule.lowercaseOnly (withoutExt "LOUD.txt".toList) = (false, none) ∧
    emptyLinter.validateFile (demoConfig [] txtRules) () [] "LOUD.txt".toList
        (Capture.last 2) [0, 1] = (none, emptyLinter) := by
  decide

/-- C9 fails as stated: for the same path, bucket and rule outcomes, with every
goroutine evaluating its own rule, the completion order `0, 1` gives the
record with rules `[lowercaseOnly, maxLength20]` and the completion order
`1, 0` the record with rules `[maxLength20, lowercaseOnly]`. -/
theorem C9_rules_order_not_deterministic :
    emptyLinter.validateFile (demoConfig [] txtRules) () []
        "LOUD-AND-FAR-TOO-LONG-A-NAME.txt".toList Capture.own [0, 0, 0, 1, 1, 1] =
      (none, { Entrypoint := [], Errors :=
        [{ Path := "LOUD-AND-FAR-TOO-LONG-A-NAME.txt".toList,
           Rules := [DemoRule.lowercaseOnly, DemoRule.maxLength20] }] }) ∧
    emptyLinter.validateFile (demoConfig [] txtRules) () []
        "LOUD-AND-FAR-TOO-LONG-A-NAME.txt".toList Capture.own [1, 1, 1, 0, 0, 0] =
      (none, { Entrypoint := [], Errors :=
        [{ Path := "LOUD-AND-FAR-TOO-LONG-A-NAME.txt".toList,
           Rules := [DemoRule.maxLength20, DemoRule.lowercaseOnly] }] }) ∧
    emptyLinter.validateFile (demoConfig [] txtRules) () []
        "LOUD-AND-FAR-TOO-LONG-A-NAME.txt".toList Capture.own [0, 0, 0, 1, 1, 1] ≠
      emptyLinter.validateFile (demoConfig [] txtRules) () []
        "LOUD-AND-FAR-TOO-LONG-A-NAME.txt".toList Capture.own [1, 1, 1, 0, 0, 0] := by
  decide

/-- C9, amended: the order of the rules within a record is the order in which
the evaluations complete.  For every path and bucket in which no rule returns
an error, and every execution of `validateFile` in which every goroutine
evaluates and appends the rule of its own iteration and the evaluations run
one after the other in an order `order` (a permutation of the positions of
`rules[ext]`), `validateFile` returns `nil` and the record it appends, if any,
has as `Rules` the failing rules listed in the order `order`; no record is
appended when there is none. -/
theorem C9_rules_in_completion_order {ρ ι : Type} [Rule ρ] (linter : Linter ρ)
    (config : Config ρ ι) (index : ι) (entrypoint path : GoString) (order : List Nat)
    (hperm : order.Perm (List.range ((config.getConfig index path).get (Ext path)).length))
    (hok : ∀ rule ∈ (config.getConfig index path).get (Ext path),
      (Rule.Validate rule (withoutExt path)).2 = none) :
    linter.validateFile config index entrypoint path Capture.own (Group.serial order) =
      (none,
        match validateFile.failing (withoutExt path)
            (order.filterMap (fun i => ((config.getConfig index path).get (Ext path))[i]?)) with
        | [] => linter
        | r :: rs => linter.addError { Path := path, Rules := r :: rs }) := by
  unfold Linter.validateFile
  rw [validateFile.core_serial config index path order hperm hok]
  cases validateFile.failing (withoutExt path)
      (order.filterMap (fun i => ((config.getConfig index path).get (Ext path))[i]?)) with
  | nil => rfl
  | cons r rs => rfl

/-- Witness for C9, amended: the two sample rules completing in the order
`1, 0`. -/
theorem C9_rules_in_completion_order_witness :
    [1, 0].Perm (List.range (((demoConfig [] txtRules).getConfig ()
      "LOUD-AND-FAR-TOO-LONG-A-NAME.txt".toList).get
        (Ext "LOUD-AND-FAR-TOO-LONG-A-NAME.txt".toList)).length) ∧
    (∀ rule ∈ ((demoConfig [] txtRules).getConfig ()
        "LOUD-AND-FAR-TOO-LONG-A-NAME.txt".toList).get
          (Ext "LOUD-AND-FAR-TOO-LONG-A-NAME.txt".toList),
      (Rule.Validate rule (withoutExt "LOUD-AND-FAR-TOO-LONG-A-NAME.txt".toList)).2 = none) ∧
    emptyLinter.validateFile (demoConfig [] txtRules) () []
        "LOUD-AND-FAR-TOO-LONG-A-NAME.txt".toList Capture.own (Group.serial [1, 0]) =
      (none, emptyLinter.addError
        { Path := "LOUD-AND-FAR-TOO-LONG-A-NAME.txt".toList,
          Rules := [DemoRule.maxLength20, DemoRule.lowercaseOnly] }) :=
  ⟨by decide, by decide,
    C9_rules_in_completion_order emptyLinter (demoConfig [] txtRules) () []
      "LOUD-AND-FAR-TOO-LONG-A-NAME.txt".toList [1, 0] (by decide) (by decide)⟩

/-! ### `Linter.Run` -/

theorem addError.prog_eq {ρ : Type} : @addError.prog ρ = Group.lockedAppend := rfl

theorem Run.walker_shape {ρ ι : Type} [Rule ρ] (config : Config ρ ι) (index : ι)
    (fs : GoString → FsNode) (join : GoString → GoString → GoString)
    (inner : GoString → Capture × List Nat) (root named : GoString) :
    (∃ xs : List (Error ρ),
      (Run.walker config index fs join inner root named).prog =
        xs.flatMap Group.lockedAppend) ∧
    (Run.walker config index fs join inner root named).done = false :=
  ⟨⟨(Run.walk config index fs join inner root named).1, by
    simp only [Run.walker, addError.prog_eq]⟩, rfl⟩

theorem Run.walkers_shape {ρ ι : Type} [Rule ρ] (config : Config ρ ι) (index : ι)
    (fs : GoString → FsNode) (join : GoString → GoString → GoString)
    (capture : Capture) (inner : Nat → GoString → Capture × List Nat) :
    ∀ t ∈ Run.walkers config index fs join capture inner,
      (∃ xs : List (Error ρ), t.prog = xs.flatMap Group.lockedAppend) ∧ t.done = false := by
  intro t ht
  obtain ⟨p, _, rfl⟩ := List.mem_map.1 ht
  exact Run.walker_shape config index fs join _ _ _

theorem Run.start_ok {ρ ι : Type} [Rule ρ] (linter : Linter ρ) (config : Config ρ ι)
    (fs : GoString → FsNode) (join : GoString → GoString → GoString)
    (capture : Capture) (inner : Nat → GoString → Capture × List Nat)
    (g : Group (Error ρ))
    (h : Run.start linter config fs join capture inner = Except.ok g) :
    ∃ index, g =
      { var := linter.Errors, writer := none, err := none,
        threads := Run.walkers config index fs join capture inner } := by
  unfold Run.start at h
  rcases hi : config.getIndex config.getLs with ⟨index, e⟩
  rw [hi] at h
  cases e with
  | some err => simp at h
  | none =>
    simp only [Except.ok.injEq] at h
    exact ⟨index, h.symm⟩

/-- A walker that finds in `entrypoint` a root `Lstat` does not find returns the
error `<named> not found`, `named` being what it finds in `entrypoint` when it
formats the error, and passes no record to `addError`. -/
theorem Run.walk_missing {ρ ι : Type} [Rule ρ] (config : Config ρ ι) (index : ι)
    (fs : GoString → FsNode) (join : GoString → GoString → GoString)
    (inner : GoString → Capture × List Nat) (root named : GoString) (e : GoError)
    (hmiss : fs root = FsNode.missing e) :
    Run.walk config index fs join inner root named =
      ([], some (GoError.msg (named ++ " not found".toList))) := by
  unfold Run.walk Walk
  rw [hmiss, LsLint.walk]
  simp [Run.walkFn]

theorem Run.walkers_own {ρ ι : Type} [Rule ρ] (config : Config ρ ι) (index : ι)
    (fs : GoString → FsNode) (join : GoString → GoString → GoString)
    (inner : Nat → GoString → Capture × List Nat) :
    ∀ p ∈ config.getLs.enum,
      Run.walker config index fs join (inner p.1) p.2 p.2 ∈
        Run.walkers config index fs join Capture.own inner := by
  intro p hp
  unfold Run.walkers
  refine List.mem_map.2 ⟨p, hp, ?_⟩
  obtain ⟨i, x⟩ := p
  simp only [Capture.own]
  rw [Capture.value_own _ i x hp]

/-- When every walker finds its own entrypoint in `entrypoint`: for an
entrypoint `Lstat` does not find, `Run` returns a non-nil error. -/
theorem Run.missing_entrypoint_own {ρ ι : Type} [Rule ρ] (linter : Linter ρ)
    (config : Config ρ ι) (fs : GoString → FsNode)
    (join : GoString → GoString → GoString) (inner : Nat → GoString → Capture × List Nat)
    (outer : List Nat) (entrypoint : GoString) (e : GoError)
    (hmem : entrypoint ∈ config.getLs) (hmiss : fs entrypoint = FsNode.missing e) :
    (linter.Run config fs join Capture.own inner outer).1 ≠ none := by
  unfold Linter.Run
  cases hs : Run.start linter config fs join Capture.own inner with
  | error err => simp
  | ok g =>
    obtain ⟨index, rfl⟩ := Run.start_ok linter config fs join Capture.own inner g hs
    have hwf : Group.WF (
        { var := linter.Errors, writer := none, err := none,
          threads := Run.walkers config index fs join Capture.own inner } :
        Group (Error ρ)) :=
      Group.WF.of_start _ rfl (fun t ht => by
        obtain ⟨⟨xs, hxs⟩, hd⟩ := Run.walkers_shape config index fs join Capture.own inner t ht
        exact ⟨by rw [hxs]; exact Group.bal_flatMap_lockedAppend xs, hd⟩)
    have herr := Group.exec_err _ hwf rfl (fun t ht =>
      (Run.walkers_shape config index fs join Capture.own inner t ht).2) outer
    intro hnone
    have hall := herr.2.1 hnone
    obtain ⟨i, hi⟩ := List.mem_iff_getElem?.1 hmem
    have hp : (i, entrypoint) ∈ config.getLs.enum := List.mk_mem_enum_iff_getElem?.2 hi
    have := hall _ (Run.walkers_own config index fs join inner (i, entrypoint) hp)
    have hw := Run.walk_missing config index fs join (inner i) entrypoint entrypoint e hmiss
    simp [Run.walker, hw] at this

theorem Run.walkFn_out {ρ ι : Type} [Rule ρ] (config : Config ρ ι) (index : ι)
    (inner : GoString → Capture × List Nat) (entrypoint : GoString) :
    WalkFnOut (Run.walkFn config index inner entrypoint) := by
  refine ⟨fun path err => rfl, fun path err => rfl, fun path err => ?_⟩
  unfold Run.walkFn
  simp only [Bool.false_eq_true, if_false]
  rcases hc : validateFile.core config index path (inner path).1 (inner path).2
    with ⟨e, _ | error⟩
  · simp
  · have := validateFile.core_path config index path _ _ error (by rw [hc])
    simp [this]

mutual
theorem walk_paths {ρ : Type} (join : GoString → GoString → GoString)
    (walkFn : GoString → Option FileInfo → Option GoError → List (Error ρ) × Option GoError)
    (h : WalkFnOut walkFn) (path : GoString) :
    ∀ node : FsNode,
      ((walk join walkFn path node).1.map Error.Path).Sublist
        (FsNode.filePaths join path node)
  | FsNode.missing err => by
    rw [walk, FsNode.filePaths, h.missing]; exact List.Sublist.refl _
  | FsNode.file => by
    rw [walk, FsNode.filePaths]; exact h.file path none
  | FsNode.dir readErr entries => by
    rw [walk, FsNode.filePaths]
    have h1 := h.dir path readErr
    have h2 := walkEntries_paths join walkFn h path entries
    rcases hw : walkFn path (some { IsDir := true }) readErr with ⟨out1, err1⟩
    rw [hw] at h1
    simp only at h1
    subst h1
    simp only
    split
    · simp
    · rcases hw2 : walkEntries join walkFn path entries with ⟨out2, err2⟩
      rw [hw2] at h2
      simpa using h2
theorem walkEntries_paths {ρ : Type} (join : GoString → GoString → GoString)
    (walkFn : GoString → Option FileInfo → Option GoError → List (Error ρ) × Option GoError)
    (h : WalkFnOut walkFn) (path : GoString) :
    ∀ entries : List (GoString × FsNode),
      ((walkEntries join walkFn path entries).1.map Error.Path).Sublist
        (FsNode.entriesFilePaths join path entries)
  | [] => by
    rw [walkEntries, FsNode.entriesFilePaths]; exact List.Sublist.refl _
  | (name, node) :: rest => by
    rw [walkEntries, FsNode.entriesFilePaths]
    have h1 := walk_paths join walkFn h (join path name) node
    have h2 := walkEntries_paths join walkFn h path rest
    rcases hw : walk join walkFn (join path name) node with ⟨out, err⟩
    rw [hw] at h1
    simp only
    split
    · exact h1.trans (List.sublist_append_left _ _)
    · rcases hw2 : walkEntries join walkFn path rest with ⟨out', err'⟩
      rw [hw2] at h2
      simp only [List.map_append]
      exact List.Sublist.append h1 h2
end

mutual
theorem walk_mem {β : Type} (join : GoString → GoString → GoString)
    (walkFn : GoString → Option FileInfo → Option GoError → List β × Option GoError)
    (P : β → Prop) (h : ∀ path info err, ∀ x ∈ (walkFn path info err).1, P x)
    (path : GoString) :
    ∀ node : FsNode, ∀ x ∈ (walk join walkFn path node).1, P x
  | FsNode.missing err => by
    rw [walk]; exact h path none (some err)
  | FsNode.file => by
    rw [walk]; exact h path _ none
  | FsNode.dir readErr entries => by
    rw [walk]
    have h1 := h path (some { IsDir := true }) readErr
    have h2 := walkEntries_mem join walkFn P h path entries
    rcases hw : walkFn path (some { IsDir := true }) readErr with ⟨out1, err1⟩
    rw [hw] at h1
    simp only at h1 ⊢
    split
    · exact h1
    · rcases hw2 : walkEntries join walkFn path entries with ⟨out2, err2⟩
      rw [hw2] at h2
      intro x hx
      rcases List.mem_append.1 hx with hx | hx
      · exact h1 x hx
      · exact h2 x hx
theorem walkEntries_mem {β : Type} (join : GoString → GoString → GoString)
    (walkFn : GoString → Option FileInfo → Option GoError → List β × Option GoError)
    (P : β → Prop) (h : ∀ path info err, ∀ x ∈ (walkFn path info err).1, P x)
    (path : GoString) :
    ∀ entries : List (GoString × FsNode), ∀ x ∈ (walkEntries join walkFn path entries).1, P x
  | [] => by
    rw [walkEntries]; intro x hx; simp at hx
  | (name, node) :: rest => by
    rw [walkEntries]
    have h1 := walk_mem join walkFn P h (join path name) node
    have h2 := walkEntries_mem join walkFn P h path rest
    rcases hw : walk join walkFn (join path name) node with ⟨out, err⟩
    rw [hw] at h1
    simp only at h1 ⊢
    split
    · exact h1
    · rcases hw2 : walkEntries join walkFn path rest with ⟨out', err'⟩
      rw [hw2] at h2
      intro x hx
      rcases List.mem_append.1 hx with hx | hx
      · exact h1 x hx
      · exact h2 x hx
end

/-- Every record a walker passes to `addError` has a non-empty `Rules`. -/
theorem Run.walk_rules {ρ ι : Type} [Rule ρ] (config : Config ρ ι) (index : ι)
    (fs : GoString → FsNode) (join : GoString → GoString → GoString)
    (inner : GoString → Capture × List Nat) (root named : GoString) :
    ∀ x ∈ (Run.walk config index fs join inner root named).1, x.Rules ≠ [] := by
  have hfn : ∀ path info err,
      ∀ x ∈ (Run.walkFn config index inner named path info err).1, x.Rules ≠ [] := by
    intro path info err x hx
    unfold Run.walkFn at hx
    cases info with
    | none => simp at hx
    | some info =>
      simp only at hx
      split at hx
      · simp at hx
      · rcases hc : validateFile.core config index path (inner path).1 (inner path).2
          with ⟨e, _ | error⟩
        · rw [hc] at hx; simp at hx
        · rw [hc] at hx
          simp only [List.mem_singleton] at hx
          subst hx
          exact validateFile.core_rules config index path _ _ x (by rw [hc])
  have hw := walk_mem join (Run.walkFn config index inner named)
    (fun x => x.Rules ≠ []) hfn root (fs root)
  unfold Run.walk Walk
  rcases hwe : LsLint.walk join (Run.walkFn config index inner named) root (fs root)
    with ⟨out, err⟩
  rw [hwe] at hw
  simp only
  split <;> exact hw

theorem Walk_paths {ρ : Type} (join : GoString → GoString → GoString)
    (walkFn : GoString → Option FileInfo → Option GoError → List (Error ρ) × Option GoError)
    (h : WalkFnOut walkFn) (root : GoString) (node : FsNode) :
    ((Walk join walkFn root node).1.map Error.Path).Sublist
      (FsNode.filePaths join root node) := by
  have h1 := walk_paths join walkFn h root node
  unfold Walk
  rcases hw : walk join walkFn root node with ⟨out, err⟩
  rw [hw] at h1
  simp only
  split <;> exact h1

theorem sublist_flatMap {β γ : Type} (l : List β) (f g : β → List γ)
    (h : ∀ a ∈ l, (f a).Sublist (g a)) : (l.flatMap f).Sublist (l.flatMap g) := by
  induction l with
  | nil => exact List.Sublist.refl _
  | cons a l ih =>
    rw [List.flatMap_cons, List.flatMap_cons]
    exact List.Sublist.append (h a (List.mem_cons_self _ _))
      (ih (fun b hb => h b (List.mem_cons_of_mem _ hb)))

theorem Run.pending_eq_walks {ρ ι : Type} [Rule ρ] (linter : Linter ρ) (config : Config ρ ι)
    (index : ι) (fs : GoString → FsNode) (join : GoString → GoString → GoString)
    (capture : Capture) (inner : Nat → GoString → Capture × List Nat) :
    Group.pending
      ({ var := linter.Errors, writer := none, err := none,
         threads := Run.walkers config index fs join capture inner } :
        Group (Error ρ)) =
      config.getLs.enum.flatMap (fun p =>
        (Run.walk config index fs join (inner p.1)
          (Capture.value config.getLs (capture.first p.1) p.2)
          (Capture.value config.getLs (capture.second p.1) p.2)).1) := by
  unfold Group.pending Run.walkers
  simp only [List.flatMap_map]
  exact List.flatMap_congr (fun p _ => by
    simp only [Run.walker, addError.prog_eq]
    exact Group.stores_flatMap_lockedAppend _)

/-- Every execution of `Run` that passes `getIndex` ends with `linter.Errors`
extended by the records of all walkers, each exactly once, in some order. -/
theorem Run.errors_perm {ρ ι : Type} [Rule ρ] (linter : Linter ρ) (config : Config ρ ι)
    (fs : GoString → FsNode) (join : GoString → GoString → GoString)
    (capture : Capture) (inner : Nat → GoString → Capture × List Nat) (outer : List Nat) :
    (linter.Run config fs join capture inner outer).2.Errors = linter.Errors ∨
    ∃ index w,
      (linter.Run config fs join capture inner outer).2.Errors = linter.Errors ++ w ∧
      w.Perm (config.getLs.enum.flatMap (fun p =>
        (Run.walk config index fs join (inner p.1)
          (Capture.value config.getLs (capture.first p.1) p.2)
          (Capture.value config.getLs (capture.second p.1) p.2)).1)) := by
  unfold Linter.Run
  cases hs : Run.start linter config fs join capture inner with
  | error err => left; rfl
  | ok g =>
    right
    obtain ⟨index, rfl⟩ := Run.start_ok linter config fs join capture inner g hs
    obtain ⟨_, _, w, hv, hp⟩ := Group.exec_lockedAppend
      ({ var := linter.Errors, writer := none, err := none,
         threads := Run.walkers config index fs join capture inner } :
        Group (Error ρ)) rfl
      (Run.walkers_shape config index fs join capture inner) outer
    rw [Run.pending_eq_walks] at hp
    exact ⟨index, w, hv, hp⟩

/-- C4, evaluated where the code departs from it: the entrypoints are `nope`,
which does not exist, and `a`.  Walking `nope` gives the error
`nope not found`; but with one variable `entrypoint` for the loop and both
walkers running after the loop has ended, both find `a` in `entrypoint` and
walk `a`: no walker returns an error, `Run` returns `nil`, and the record of
`a/LOUD.txt` is appended twice. -/
theorem C4_missing_entrypoint_unnoticed_when_entrypoint_is_captured :
    "nope".toList ∈ (demoConfig ["nope".toList, "a".toList] txtRules).getLs ∧
    Run.walk (demoConfig ["nope".toList, "a".toList] txtRules) () demoFs joinClean
        (fun _ => (Capture.own, [])) "nope".toList "nope".toList =
      ([], some (GoError.msg "nope not found".toList)) ∧
    (Capture.last 2).admissible 2 = true ∧
    emptyLinter.Run (demoConfig ["nope".toList, "a".toList] txtRules) demoFs joinClean
        (Capture.last 2) (fun _ _ => (Capture.own, [])) [] =
      (none, { Entrypoint := [], Errors :=
        [{ Path := "a/LOUD.txt".toList, Rules := [DemoRule.lowercaseOnly] },
         { Path := "a/LOUD.txt".toList, Rules := [DemoRule.lowercaseOnly] }] }) := by
  decide

/-- C5: if `config.getIndex` returns a non-nil error, `Run` returns exactly
that error, starts no walker (it returns before any goroutine is started, so
no path is visited and no rule is evaluated), and leaves `linter.Errors`
unchanged. -/
theorem C5_index_error_returned {ρ ι : Type} [Rule ρ] (linter : Linter ρ)
    (config : Config ρ ι) (fs : GoString → FsNode) (join : GoString → GoString → GoString)
    (capture : Capture) (inner : Nat → GoString → Capture × List Nat) (outer : List Nat)
    (err : GoError) (h : (config.getIndex config.getLs).2 = some err) :
    linter.Run config fs join capture inner outer = (some err, linter) ∧
    Run.start linter config fs join capture inner = Except.error err := by
  have hs : Run.start linter config fs join capture inner = Except.error err := by
    unfold Run.start
    rcases hi : config.getIndex config.getLs with ⟨index, e⟩
    rw [hi] at h
    simp only at h
    subst h
    rfl
  refine ⟨?_, hs⟩
  unfold Linter.Run
  rw [hs]

/-- Witness for C5: a configuration whose index cannot be resolved. -/
theorem C5_index_error_returned_witness :
    (brokenIndexConfig.getIndex brokenIndexConfig.getLs).2 =
      some (GoError.msg "invalid configuration".toList) ∧
    emptyLinter.Run brokenIndexConfig demoFs joinClean (Capture.last 1)
        (fun _ _ => (Capture.own, [])) [0] =
      (some (GoError.msg "invalid configuration".toList), emptyLinter) :=
  ⟨by decide,
    (C5_index_error_returned emptyLinter brokenIndexConfig demoFs joinClean (Capture.last 1)
      (fun _ _ => (Capture.own, [])) [0] (GoError.msg "invalid configuration".toList)
      (by decide)).1⟩

/-- C7 fails as stated: with the entrypoints `a` and `a/LOUD.txt`, the second
inside the subtree of the first, and every walker walking its own entrypoint,
`Run` started from an empty `linter.Errors` ends with two records for the
path `a/LOUD.txt`. -/
theorem C7_path_recorded_twice :
    emptyLinter.Errors = [] ∧
    (emptyLinter.Run (demoConfig ["a".toList, "a/LOUD.txt".toList] txtRules) demoFs
        joinClean Capture.own (fun _ _ => (Capture.own, [])) []).2.Errors.map Error.Path =
      ["a/LOUD.txt".toList, "a/LOUD.txt".toList] ∧
    ¬ ((emptyLinter.Run (demoConfig ["a".toList, "a/LOUD.txt".toList] txtRules) demoFs
        joinClean Capture.own (fun _ _ => (Capture.own, [])) []).2.Errors.map
          Error.Path).Nodup := by
  decide

/-- C7, amended: for every configuration and filesystem tree in which the
entrypoints lead to pairwise different file paths (no file path is found
twice, under one entrypoint or under two), and every execution of `Run` in
which every walker walks the entrypoint of its own iteration, after `Run`
started from an empty `linter.Errors` returns, no two records in
`linter.Errors` have the same `Path`, whatever the interleavings and whatever
the rule goroutines find in `rule`. -/
theorem C7_paths_distinct_when_files_reached_once {ρ ι : Type} [Rule ρ] (linter : Linter ρ)
    (config : Config ρ ι) (fs : GoString → FsNode) (join : GoString → GoString → GoString)
    (capture : Capture) (inner : Nat → GoString → Capture × List Nat) (outer : List Nat)
    (hempty : linter.Errors = [])
    (hown : ∀ i, i < config.getLs.length → capture.first i = i)
    (hnd : (config.getLs.flatMap (fun ep => FsNode.filePaths join ep (fs ep))).Nodup) :
    ((linter.Run config fs join capture inner outer).2.Errors.map Error.Path).Nodup := by
  rcases Run.errors_perm linter config fs join capture inner outer with h | ⟨index, w, h, hp⟩
  · rw [h, hempty]; exact List.nodup_nil
  · rw [h, hempty, List.nil_append]
    have hsub : ((config.getLs.enum.flatMap (fun p =>
        (Run.walk config index fs join (inner p.1)
          (Capture.value config.getLs (capture.first p.1) p.2)
          (Capture.value config.getLs (capture.second p.1) p.2)).1)).map Error.Path).Sublist
        (config.getLs.flatMap (fun ep => FsNode.filePaths join ep (fs ep))) := by
      have hfl : config.getLs.flatMap (fun ep => FsNode.filePaths join ep (fs ep)) =
          config.getLs.enum.flatMap (fun p => FsNode.filePaths join p.2 (fs p.2)) := by
        conv_lhs => rw [← List.enum_map_snd config.getLs]
        rw [List.flatMap_map]
      rw [hfl, List.map_flatMap]
      refine sublist_flatMap _ _ _ (fun p hp' => ?_)
      obtain ⟨i, x⟩ := p
      have hi : i < config.getLs.length := (List.mem_enum hp').1
      simp only
      rw [hown i hi, Capture.value_own _ i x hp']
      exact Walk_paths join _ (Run.walkFn_out config index (inner i) _) x (fs x)
    exact ((hp.map Error.Path).nodup_iff).2 (List.Nodup.sublist hsub hnd)

/-- Witness for C7, amended: the entrypoints `a` and `b`, each walked by its own
walker, end with three records of three different paths. -/
theorem C7_paths_distinct_when_files_reached_once_witness :
    emptyLinter.Errors = [] ∧
    (∀ i, i < (demoConfig ["a".toList, "b".toList] txtRules).getLs.length →
      Capture.own.first i = i) ∧
    ((demoConfig ["a".toList, "b".toList] txtRules).getLs.flatMap
      (fun ep => FsNode.filePaths joinClean ep (demoFs ep))).Nodup ∧
    (emptyLinter.Run (demoConfig ["a".toList, "b".toList] txtRules) demoFs joinClean
        Capture.own (fun _ _ => (Capture.own, [0, 1])) [1, 1, 0, 1]).2.Errors.map
          Error.Path =
      ["b/SHOUT.txt".toList, "a/LOUD.txt".toList, "b/Mixed.txt".toList] ∧
    ((emptyLinter.Run (demoConfig ["a".toList, "b".toList] txtRules) demoFs joinClean
      Capture.own (fun _ _ => (Capture.own, [0, 1])) [1, 1, 0, 1]).2.Errors.map
        Error.Path).Nodup :=
  ⟨rfl, fun _ _ => rfl, by decide, by decide,
    C7_paths_distinct_when_files_reached_once emptyLinter
      (demoConfig ["a".toList, "b".toList] txtRules) demoFs joinClean Capture.own
      (fun _ _ => (Capture.own, [0, 1])) [1, 1, 0, 1] rfl (fun _ _ => rfl) (by decide)⟩

/-- C2: `validateFile` appends a record only when the failing-rules sequence
is non-empty.  For every file, every interleaving of the rule evaluations and
whatever the goroutines find in the loop variables: if the candidate name
passes every rule stored under the file's extension (`Validate` returns
`(true, nil)`; in particular when there is no rule), then `validateFile`
returns `nil` and leaves `linter.Errors` unchanged; in every case a record
found in `linter.Errors` after the call was there before or has a non-empty
`Rules` sequence; and so has every record found in `linter.Errors` after
`Run` that was not there before. -/
theorem C2_record_only_when_rules_fail {ρ ι : Type} [Rule ρ] (linter : Linter ρ)
    (config : Config ρ ι) (index : ι) (entrypoint path : GoString) (capture : Capture)
    (sched : List Nat) (fs : GoString → FsNode) (join : GoString → GoString → GoString)
    (entrypoints : Capture) (inner : Nat → GoString → Capture × List Nat)
    (outer : List Nat) :
    ((∀ rule ∈ (config.getConfig index path).get (Ext path),
        Rule.Validate rule (withoutExt path) = (true, none)) →
      linter.validateFile config index entrypoint path capture sched = (none, linter)) ∧
    (∀ e ∈ (linter.validateFile config index entrypoint path capture sched).2.Errors,
      e ∈ linter.Errors ∨ e.Rules ≠ []) ∧
    (∀ e ∈ (linter.Run config fs join entrypoints inner outer).2.Errors,
      e ∈ linter.Errors ∨ e.Rules ≠ []) := by
  refine ⟨?_, ?_, ?_⟩
  · intro h
    unfold Linter.validateFile
    rw [validateFile.core_all_pass config index path capture sched h]
  · intro e he
    unfold Linter.validateFile at he
    rcases hc : validateFile.core config index path capture sched with ⟨err, _ | error⟩
    · rw [hc] at he
      exact Or.inl he
    · rw [hc] at he
      simp only [Linter.addError, List.mem_append, List.mem_singleton] at he
      rcases he with he | rfl
      · exact Or.inl he
      · exact Or.inr (validateFile.core_rules config index path capture sched e (by rw [hc]))
  · intro e he
    rcases Run.errors_perm linter config fs join entrypoints inner outer
      with h | ⟨index', w, h, hp⟩
    · rw [h] at he
      exact Or.inl he
    · rw [h] at he
      rcases List.mem_append.1 he with he | he
      · exact Or.inl he
      · right
        obtain ⟨p, _, hep⟩ := List.mem_flatMap.1 ((hp.mem_iff).1 he)
        exact Run.walk_rules config index' fs join _ _ _ e hep

/-- Witness for C2: `ok.txt` passes both sample rules stored under `.txt`. -/
theorem C2_record_only_when_rules_fail_witness :
    (∀ rule ∈ ((demoConfig [] txtRules).getConfig () "ok.txt".toList).get
        (Ext "ok.txt".toList),
      Rule.Validate rule (withoutExt "ok.txt".toList) = (true, none)) ∧
    emptyLinter.validateFile (demoConfig [] txtRules) () [] "ok.txt".toList
        (Capture.last 2) [1, 0, 1] = (none, emptyLinter) :=
  ⟨by decide,
    (C2_record_only_when_rules_fail emptyLinter (demoConfig [] txtRules) () []
      "ok.txt".toList (Capture.last 2) [1, 0, 1] demoFs joinClean Capture.own
      (fun _ _ => (Capture.own, [])) []).1 (by decide)⟩

end LsLint
